import Mathlib

/-!
# Node comparison and flattening, lexical spans (`src/node.cpp`)

A shallow embedding of `Sass::Token` and `Sass::Node` and of the methods implemented in
`node.cpp`, followed by the properties established about them.

Conventions of the embedding

* A C `char` is represented by its integer value (`char := Int`), so that the comparisons
  `*first1 < *first2` of the source are integer comparisons whatever the signedness of `char`
  on the platform.  Character constants are written by their ASCII value.
* A `Token` is a pair of positions into a source text.  The text is a C string: the position
  just after its last character holds the terminating NUL, which is what `deref` returns there.
* A `double` is represented up to what `<` and `==` can observe: NaN, the two infinities, or a
  finite value (both zeros are the finite value `0`).
* A `Node` is a handle on a `Node_Impl`; the embedding is the tree of backing stores, each
  referenced once.
* Loops whose trip count is bounded by a span length run on a counter that is one more than
  that bound; `while` loops over a changing child vector and the recursion of `flatten` run on
  explicit fuel and return `none` when it is exhausted.
* Where a property is about what a method reads or inlines, the method is repeated with a
  record of it (`unquote_reads`, `unquote_to_stream_reads`, `flatten_inlined`) and the
  repetition is shown to return the result of the method.
-/

namespace Sass

/-! ## Characters and spans -/

/-- Integer value of a C `char`. -/
abbrev char := Int

/-- Lexical span `Token`: the positions `begin` and `end` of a half-open range of the source
text `src`. -/
structure Token where
  /-- the text the two pointers point into, without its terminating NUL -/
  src : List char
  /-- position of the first character of the span -/
  begin : Nat
  /-- position one past the last character of the span -/
  end_ : Nat
  /-- the range is not reversed -/
  begin_le_end : begin ≤ end_
  /-- the range lies inside the text -/
  end_le_length : end_ ≤ src.length

namespace Token

/-- Read of `*p` for a pointer `p` into the text of the span; the position after the text holds
the terminating NUL. -/
def deref (t : Token) (p : Nat) : char := t.src.getD p 0

/-- Raw characters of the span, positions `begin` to `end - 1`. -/
def bytes (t : Token) : List char := (t.src.drop t.begin).take (t.end_ - t.begin)

/-- Span of a whole C string, `Token::make(const char*)`. -/
def make (s : List char) : Token :=
  { src := s, begin := 0, end_ := s.length,
    begin_le_end := Nat.zero_le _, end_le_length := Nat.le_refl _ }

/-- Modelled from the spec: `Token::length()` is declared in `node.hpp`, which is not part of
the sources; the spec gives it as the byte count of the span. -/
def length (t : Token) : Nat := t.end_ - t.begin

/-- Character appended for the escape `\c`: the `switch (*(++p))` of `unquote`. -/
def escape (c : char) : char :=
  if c = 110 then 10          -- 'n'  -> '\n'
  else if c = 116 then 9      -- 't'  -> '\t'
  else if c = 98 then 8       -- 'b'  -> '\b'
  else if c = 114 then 13     -- 'r'  -> '\r'
  else if c = 102 then 12     -- 'f'  -> '\f'
  else if c = 118 then 11     -- 'v'  -> '\v'
  else if c = 97 then 7       -- 'a'  -> '\a'
  else if c = 92 then 92      -- '\\' -> '\\'
  else c

/-- The `while (p < end)` loop of the quoted branch of `unquote`, from pointer `p` with the
text `result` accumulated so far.  Every iteration advances `p`, so `end - p + 1` iterations
are enough; the counter is never exhausted when it starts above `end - p`. -/
def unquote_loop (t : Token) : Nat → Nat → List char → List char
  | 0, _, result => result
  | n + 1, p, result =>
    if p < t.end_ then
      if t.deref p = 92 then
        unquote_loop t n (p + 1 + 1) (result ++ [escape (t.deref (p + 1))])
      else if p = t.end_ - 1 then
        result
      else
        unquote_loop t n (p + 1) (result ++ [t.deref p])
    else
      result

/-- The `while (p < end)` loop of the unquoted branch of `unquote`. -/
def copy_loop (t : Token) : Nat → Nat → List char → List char
  | 0, _, result => result
  | n + 1, p, result =>
    if p < t.end_ then copy_loop t n (p + 1) (result ++ [t.deref p]) else result

/-- Decoder `Token::unquote()`. -/
def unquote (t : Token) : List char :=
  if t.deref t.begin = 39 ∨ t.deref t.begin = 34 then
    unquote_loop t (t.end_ - (t.begin + 1) + 1) (t.begin + 1) []
  else
    copy_loop t (t.end_ - t.begin + 1) t.begin []

/-- The `while (first1 != last1)` loop of `Token::operator<`. -/
def lt_loop (t rhs : Token) : Nat → Nat → Nat → Bool
  | 0, _, _ => false
  | n + 1, first1, first2 =>
    if first1 ≠ t.end_ then
      if first2 = rhs.end_ ∨ rhs.deref first2 < t.deref first1 then false
      else if t.deref first1 < rhs.deref first2 then true
      else lt_loop t rhs n (first1 + 1) (first2 + 1)
    else
      decide (first2 ≠ rhs.end_)

/-- Ordering `Token::operator<`. -/
def lt (t rhs : Token) : Bool :=
  lt_loop t rhs (t.end_ - t.begin + 1) t.begin rhs.begin

/-- The `for (; p < end; ++p, ++q)` loop of `Token::operator==`. -/
def eq_loop (t rhs : Token) : Nat → Nat → Nat → Bool
  | 0, _, _ => true
  | n + 1, p, q =>
    if p < t.end_ then
      if t.deref p ≠ rhs.deref q then false else eq_loop t rhs n (p + 1) (q + 1)
    else
      true

/-- Equality `Token::operator==`. -/
def eq (t rhs : Token) : Bool :=
  if t.length ≠ rhs.length then false
  else if (t.deref t.begin = 34 ∨ t.deref t.begin = 39) ∧
      (rhs.deref rhs.begin = 34 ∨ rhs.deref rhs.begin = 39) then
    decide (t.unquote = rhs.unquote)
  else
    eq_loop t rhs (t.end_ - t.begin + 1) t.begin rhs.begin

/-- Comparison of two texts in the manner of `std::lexicographical_compare`; `Token::operator<`
is shown below to compute it on the raw characters of the two spans. -/
def lex : List char → List char → Bool
  | [], [] => false
  | [], _ :: _ => true
  | _ :: _, [] => false
  | x :: xs, y :: ys => if y < x then false else if x < y then true else lex xs ys

/-- The `while (p < end)` loop of the quoted branch of `unquote_to_stream`, from pointer `p`
with the content `buf` of the sink; `buf << c` appends `c` to the sink. -/
def unquote_to_stream_loop (t : Token) : Nat → Nat → List char → List char
  | 0, _, buf => buf
  | n + 1, p, buf =>
    if p < t.end_ then
      if t.deref p = 92 then
        unquote_to_stream_loop t n (p + 1 + 1) (buf ++ [escape (t.deref (p + 1))])
      else if p = t.end_ - 1 then
        buf
      else
        unquote_to_stream_loop t n (p + 1) (buf ++ [t.deref p])
    else
      buf

/-- The `while (p < end)` loop of the unquoted branch of `unquote_to_stream`. -/
def copy_to_stream_loop (t : Token) : Nat → Nat → List char → List char
  | 0, _, buf => buf
  | n + 1, p, buf =>
    if p < t.end_ then copy_to_stream_loop t n (p + 1) (buf ++ [t.deref p]) else buf

/-- Decoder `Token::unquote_to_stream(buf)`, returning the content of the sink after the call
from its content `buf` before the call. -/
def unquote_to_stream (t : Token) (buf : List char) : List char :=
  if t.deref t.begin = 39 ∨ t.deref t.begin = 34 then
    unquote_to_stream_loop t (t.end_ - (t.begin + 1) + 1) (t.begin + 1) buf
  else
    copy_to_stream_loop t (t.end_ - t.begin + 1) t.begin buf

/-! ### The decoders with the positions they read

The two decoders are repeated with a record of the positions that are dereferenced; here the
counter of a loop returns `none` when it is exhausted. -/

/-- The loop of the quoted branch of `unquote` with the positions read: `*p` in the test of the
backslash, `*(++p)` in the `switch`, `*p` in `result += *p`. -/
def unquote_loop_reads (t : Token) : Nat → Nat → List char → List Nat →
    Option (List char × List Nat)
  | 0, _, _, _ => none
  | n + 1, p, result, reads =>
    if p < t.end_ then
      if t.deref p = 92 then
        unquote_loop_reads t n (p + 1 + 1) (result ++ [escape (t.deref (p + 1))])
          (reads ++ [p, p + 1])
      else if p = t.end_ - 1 then
        some (result, reads ++ [p])
      else
        unquote_loop_reads t n (p + 1) (result ++ [t.deref p]) (reads ++ [p, p])
    else
      some (result, reads)

/-- The loop of the unquoted branch of `unquote` with the positions read. -/
def copy_loop_reads (t : Token) : Nat → Nat → List char → List Nat →
    Option (List char × List Nat)
  | 0, _, _, _ => none
  | n + 1, p, result, reads =>
    if p < t.end_ then copy_loop_reads t n (p + 1) (result ++ [t.deref p]) (reads ++ [p])
    else some (result, reads)

/-- Decoder `Token::unquote()` with the positions read, the first of which is `begin` in the
test of the quote. -/
def unquote_reads (t : Token) : Option (List char × List Nat) :=
  if t.deref t.begin = 39 ∨ t.deref t.begin = 34 then
    unquote_loop_reads t (t.end_ - (t.begin + 1) + 1) (t.begin + 1) [] [t.begin]
  else
    copy_loop_reads t (t.end_ - t.begin + 1) t.begin [] [t.begin]

/-- The loop of the quoted branch of `unquote_to_stream` with the positions read. -/
def unquote_to_stream_loop_reads (t : Token) : Nat → Nat → List char → List Nat →
    Option (List char × List Nat)
  | 0, _, _, _ => none
  | n + 1, p, buf, reads =>
    if p < t.end_ then
      if t.deref p = 92 then
        unquote_to_stream_loop_reads t n (p + 1 + 1) (buf ++ [escape (t.deref (p + 1))])
          (reads ++ [p, p + 1])
      else if p = t.end_ - 1 then
        some (buf, reads ++ [p])
      else
        unquote_to_stream_loop_reads t n (p + 1) (buf ++ [t.deref p]) (reads ++ [p, p])
    else
      some (buf, reads)

/-- The loop of the unquoted branch of `unquote_to_stream` with the positions read. -/
def copy_to_stream_loop_reads (t : Token) : Nat → Nat → List char → List Nat →
    Option (List char × List Nat)
  | 0, _, _, _ => none
  | n + 1, p, buf, reads =>
    if p < t.end_ then copy_to_stream_loop_reads t n (p + 1) (buf ++ [t.deref p]) (reads ++ [p])
    else some (buf, reads)

/-- Decoder `Token::unquote_to_stream(buf)` with the positions read. -/
def unquote_to_stream_reads (t : Token) (buf : List char) : Option (List char × List Nat) :=
  if t.deref t.begin = 39 ∨ t.deref t.begin = 34 then
    unquote_to_stream_loop_reads t (t.end_ - (t.begin + 1) + 1) (t.begin + 1) buf [t.begin]
  else
    copy_to_stream_loop_reads t (t.end_ - t.begin + 1) t.begin buf [t.begin]

/-! ### The reference decoder -/

/-- The reference decoder of a quoted body: a backslash and the character after it give the
character of the escape, any other character gives itself. -/
def reference_decode : List char → List char
  | [] => []
  | c :: [] => [c]
  | c :: d :: rest =>
    if c = 92 then escape d :: reference_decode rest else c :: reference_decode (d :: rest)

/-- A text in which every escaping backslash (one that is not the escaped character of the
backslash before it) is followed by a character of the text: the text is made of plain
characters and of complete two-character escapes. -/
def escapes_closed : List char → Bool
  | [] => true
  | c :: [] => decide (c ≠ 92)
  | c :: d :: rest => if c = 92 then escapes_closed rest else escapes_closed (d :: rest)

/-! ### Spans used as concrete inputs -/

/-- The span of the text `'abc'`. -/
def single_quoted_abc : Token := make [39, 97, 98, 99, 39]

/-- The span of the text `"abc"`. -/
def double_quoted_abc : Token := make [34, 97, 98, 99, 34]

/-- The text `"\n"\t`: a quote, a backslash and `n`, then a quote, a backslash and `t`. -/
def escapes_text : List char := [34, 92, 110, 34, 92, 116]

/-- The span of the first two characters of `escapes_text`: a quote and a backslash, followed
in the text by `n`. -/
def dangling_n : Token :=
  { src := escapes_text, begin := 0, end_ := 2,
    begin_le_end := by decide, end_le_length := by decide }

/-- The span of the fourth and fifth characters of `escapes_text`: a quote and a backslash,
followed in the text by `t`. -/
def dangling_t : Token :=
  { src := escapes_text, begin := 3, end_ := 5,
    begin_le_end := by decide, end_le_length := by decide }

/-- The span of the text `"a\`: a quote, `a` and a backslash, at the end of its text. -/
def open_escape : Token := make [34, 97, 92]

/-- The span of the text `"a\"`: the last character is a double quote that follows a
backslash. -/
def escaped_close_double : Token := make [34, 97, 92, 34]

/-- The span of the text `"a\'`: the same first three characters, then a single quote. -/
def escaped_close_single : Token := make [34, 97, 92, 39]

/-- The span of the text `"a\nb"`, with a backslash and `n` between `a` and `b`. -/
def double_quoted_escape : Token := make [34, 97, 92, 110, 98, 34]

/-- The span of the text `'a\nb'`. -/
def single_quoted_escape : Token := make [39, 97, 92, 110, 98, 39]

end Token

/-! ## Nodes -/

/-- Modelled from the spec: the enumeration `Node::Type` is declared in `node.hpp`, which is
not part of the sources; these are the tags of the spec's closed enumeration, which are also
the tags `node.cpp` names (`variable` is a reserved word and carries an underscore). -/
inductive Node_Type where
  | comma_list | space_list | expression | term | numeric_color
  | block | expansion | root | simple_selector_sequence
  | number | numeric_percentage | numeric_dimension | boolean
  | variable_ | identifier | uri | textual_percentage | textual_dimension
  | textual_number | textual_hex | string_constant
  | simple_selector | selector_combinator | pseudo
  deriving DecidableEq, Repr

/-- A C `double` up to what `<` and `==` observe: NaN, an infinity, or a finite value. -/
inductive double where
  | nan
  | neg_inf
  | finite (q : ℚ)
  | pos_inf
  deriving DecidableEq

namespace double

/-- IEEE comparison `x < y` of two doubles: false as soon as one side is NaN. -/
def lt : double → double → Bool
  | nan, _ => false
  | _, nan => false
  | neg_inf, neg_inf => false
  | neg_inf, _ => true
  | _, neg_inf => false
  | pos_inf, _ => false
  | finite _, pos_inf => true
  | finite x, finite y => decide (x < y)

/-- IEEE comparison `x == y` of two doubles: false as soon as one side is NaN. -/
def eq : double → double → Bool
  | nan, _ => false
  | _, nan => false
  | neg_inf, neg_inf => true
  | pos_inf, pos_inf => true
  | finite x, finite y => decide (x = y)
  | _, _ => false

end double

/-- Modelled from the spec: the dimension payload of `node.hpp`, a double and its unit span. -/
structure Dimension where
  numeric : double
  unit : Token

/-- Modelled from the spec: the payload union `value` of `Node_Impl` (`node.hpp`).  Its members
are kept side by side: every method reads the member that belongs to the tag of the node. -/
structure value_t where
  numeric : double
  dimension : Dimension
  boolean : Bool

/-- Modelled from the spec: the backing store `Node_Impl` of `node.hpp` with the fields that
`node.cpp` reads or writes.  A `Node` handle is identified with the store it references. -/
inductive Node where
  | mk (type : Node_Type) (children : List Node) (token : Token) (value : value_t)
      (has_statements has_blocks has_expansions : Bool) (path : String) (line : Nat)

/-- Modelled from the spec: the error record of `error.hpp`, built in `node.cpp` by
`Error(Error::evaluation, path(), line(), message)`; only the enumerator `evaluation` is named
in the sources. -/
inductive Error_Type where
  | evaluation
  | other_type
  deriving DecidableEq

/-- Error thrown by the ordering operators. -/
structure Error where
  type : Error_Type
  path : String
  line : Nat
  message : String
  deriving DecidableEq

namespace Node

open Node_Type

/-- Accessor `type()`. -/
def type : Node → Node_Type
  | mk t _ _ _ _ _ _ _ _ => t

/-- Child vector `ip_->children`. -/
def children : Node → List Node
  | mk _ cs _ _ _ _ _ _ _ => cs

/-- Accessor `token()`. -/
def token : Node → Token
  | mk _ _ tok _ _ _ _ _ _ => tok

/-- Payload `ip_->value`. -/
def value : Node → value_t
  | mk _ _ _ v _ _ _ _ _ => v

/-- Accessor `has_statements()`. -/
def has_statements : Node → Bool
  | mk _ _ _ _ s _ _ _ _ => s

/-- Accessor `has_blocks()`. -/
def has_blocks : Node → Bool
  | mk _ _ _ _ _ b _ _ _ => b

/-- Accessor `has_expansions()`. -/
def has_expansions : Node → Bool
  | mk _ _ _ _ _ _ e _ _ => e

/-- Accessor `path()`. -/
def path : Node → String
  | mk _ _ _ _ _ _ _ p _ => p

/-- Accessor `line()`. -/
def line : Node → Nat
  | mk _ _ _ _ _ _ _ _ l => l

/-- Accessor `size()`: the number of children. -/
def size (n : Node) : Nat := n.children.length

/-- Scalar accessor `Node_Impl::numeric_value()`. -/
def numeric_value (n : Node) : double :=
  match n.type with
  | number => n.value.numeric
  | numeric_percentage => n.value.numeric
  | numeric_dimension => n.value.dimension.numeric
  | _ => double.finite 0

/-- Accessor `Node_Impl::unit()`; `percent_str` is the text `%` and `empty_str` the empty
text. -/
def unit (n : Node) : Token :=
  match n.type with
  | numeric_percentage => Token.make [37]
  | numeric_dimension => n.value.dimension.unit
  | _ => Token.make []

/-- Modelled from the spec: `boolean_value()` is defined in `node.hpp`; it returns the boolean
payload. -/
def boolean_value (n : Node) : Bool := n.value.boolean

mutual

/-- Equality `Node::operator==`. -/
def eq : Node → Node → Bool
  | mk t cs tok v s b e p l, mk t' cs' tok' v' s' b' e' p' l' =>
    if t ≠ t' then false
    else
      match t with
      | comma_list | space_list | expression | term | numeric_color =>
        if cs.length ≠ cs'.length then false else eq_children cs cs'
      | variable_ | identifier | uri | textual_percentage | textual_dimension
      | textual_number | textual_hex | string_constant =>
        decide (tok.unquote = tok'.unquote)
      | number | numeric_percentage =>
        double.eq (numeric_value (mk t cs tok v s b e p l))
          (numeric_value (mk t' cs' tok' v' s' b' e' p' l'))
      | numeric_dimension =>
        if Token.eq (unit (mk t cs tok v s b e p l)) (unit (mk t' cs' tok' v' s' b' e' p' l')) then
          double.eq (numeric_value (mk t cs tok v s b e p l))
            (numeric_value (mk t' cs' tok' v' s' b' e' p' l'))
        else false
      | boolean => decide (v.boolean = v'.boolean)
      | simple_selector | selector_combinator | pseudo => Token.eq tok tok'
      | simple_selector_sequence =>
        if cs.length ≠ cs'.length then false else eq_children cs cs'
      | _ => true

/-- The loops `for (i = 0; i < size(); ++i) if (at(i) == rhs[i]) continue; else return false;`
of `Node::operator==`, run on two child vectors of the same size. -/
def eq_children : List Node → List Node → Bool
  | a :: as, b :: bs => if eq a b then eq_children as bs else false
  | _, _ => true

end

/-- Inequality `Node::operator!=`. -/
def ne (self rhs : Node) : Bool := !(eq self rhs)

/-- Ordering `Node::operator<`; a thrown `Error` is the `error` result. -/
def lt (self rhs : Node) : Except Error Bool :=
  let lhs_type := self.type
  let rhs_type := rhs.type
  if (lhs_type = number ∧ rhs_type = number) ∨
      (lhs_type = numeric_percentage ∧ rhs_type = numeric_percentage) then
    .ok (double.lt self.numeric_value rhs.numeric_value)
  else if lhs_type = numeric_dimension ∧ rhs_type = numeric_dimension then
    if Token.eq self.unit rhs.unit then
      .ok (double.lt self.numeric_value rhs.numeric_value)
    else
      .error ⟨Error_Type.evaluation, self.path, self.line, "incompatible units"⟩
  else
    .error ⟨Error_Type.evaluation, self.path, self.line, "incomparable types"⟩

/-- Ordering `Node::operator<=`, `*this < rhs || *this == rhs`: the right operand of `||` is
evaluated only when the left one returned false. -/
def le (self rhs : Node) : Except Error Bool :=
  match lt self rhs with
  | .error e => .error e
  | .ok true => .ok true
  | .ok false => .ok (eq self rhs)

/-- Ordering `Node::operator>`, `!(*this <= rhs)`. -/
def gt (self rhs : Node) : Except Error Bool :=
  match le self rhs with
  | .error e => .error e
  | .ok r => .ok (!r)

/-- Ordering `Node::operator>=`, `!(*this < rhs)`. -/
def ge (self rhs : Node) : Except Error Bool :=
  match lt self rhs with
  | .error e => .error e
  | .ok r => .ok (!r)

/-- Store `self` after `ip_->children` has been assigned `cs`. -/
def set_children : Node → List Node → Node
  | mk t _ tok v s b e p l, cs => mk t cs tok v s b e p l

/-- Store `self` after the three statements `ip_->has_... |= expn.has_...()`. -/
def or_flags : Node → Node → Node
  | mk t cs tok v s b e p l, expn =>
    mk t cs tok v (s || expn.has_statements) (b || expn.has_blocks) (e || expn.has_expansions) p l

/-- The loop `for (size_t i = 0; i < size(); ++i)` of `Node::flatten`, from index `i` on the
store `self`; `flatten_rec` is the recursive call `expn.flatten()`.  The counter bounds the
number of iterations, `none` is returned when it is exhausted.  The members `at`, `begin` and
`insert` are declared in `node.hpp`; following the spec, `insert` splices the children of
`expn` into the child vector at index `i` and touches nothing else. -/
def flatten_loop (flatten_rec : Node → Option Node) : Nat → Node → Nat → Option Node
  | 0, _, _ => none
  | n + 1, self, i =>
    if i < self.size then
      match self.children.get? i with
      | none => none
      | some at_i =>
        if at_i.type = expansion then
          match (if at_i.has_expansions then flatten_rec at_i else some at_i) with
          | none => none
          | some expn =>
            let self1 := or_flags self expn
            -- ip_->children.erase(begin() + i);
            let self2 := set_children self1 (self1.children.eraseIdx i)
            -- insert(begin() + i, expn.begin(), expn.end());
            let self3 := set_children self2
              (self2.children.take i ++ expn.children ++ self2.children.drop i)
            flatten_loop flatten_rec n self3 (i + 1)
        else
          flatten_loop flatten_rec n self (i + 1)
    else
      some self

/-- Transform `Node::flatten()`, returning the store after the call; `none` when the fuel is
exhausted. -/
def flatten : Nat → Node → Option Node
  | 0, _ => none
  | fuel + 1, self =>
    if self.type ≠ block ∧ self.type ≠ expansion ∧ self.type ≠ root then some self
    else flatten_loop (flatten fuel) (fuel + 1) self 0

mutual

/-- Number of stores in the tree of `self`. -/
def nodes : Node → Nat
  | mk _ cs _ _ _ _ _ _ _ => 1 + nodes_list cs

/-- Number of stores in the trees of a child vector. -/
def nodes_list : List Node → Nat
  | [] => 0
  | c :: cs => nodes c + nodes_list cs

end

/-! ### Flattening: inlined leaf sequences -/

mutual

/-- Inlined leaf sequence of one child: the child itself, or, for an `expansion`, the inlined
leaf sequence of its children. -/
def leaves : Node → List Node
  | mk t cs tok v s b e p l =>
    if t = expansion then leaves_list cs else [mk t cs tok v s b e p l]

/-- Inlined leaf sequence of a child vector: the left-to-right sequence of the nodes that are
not expansions, reached by descending through the expansion children. -/
def leaves_list : List Node → List Node
  | [] => []
  | c :: cs => leaves c ++ leaves_list cs

end

mutual

/-- The expansion nodes reached from one child through chains of expansion children. -/
def expansions : Node → List Node
  | mk t cs tok v s b e p l =>
    if t = expansion then mk t cs tok v s b e p l :: expansions_list cs else []

/-- The expansion nodes reached from a child vector through chains of expansion children. -/
def expansions_list : List Node → List Node
  | [] => []
  | c :: cs => expansions c ++ expansions_list cs

end

/-- An expansion is regular when it has at least one child and its flag `has_expansions` is set
if one of its children is an expansion. -/
def regular (x : Node) : Bool :=
  !x.children.isEmpty && (!(x.children.any fun c => decide (c.type = expansion)) || x.has_expansions)

/-- The store obtained by inlining every expansion reached from the children of `self`: the
children become the inlined leaf sequence and each flag is or-ed with the flags of the
expansions inlined. -/
def inlined : Node → Node
  | mk t cs tok v s b e p l =>
    mk t (leaves_list cs) tok v
      (s || (expansions_list cs).any has_statements)
      (b || (expansions_list cs).any has_blocks)
      (e || (expansions_list cs).any has_expansions) p l

mutual

/-- No numeric payload of the tree of `self` is NaN. -/
def no_nan : Node → Bool
  | mk t cs tok v s b e p l =>
    decide (numeric_value (mk t cs tok v s b e p l) ≠ double.nan) && no_nan_list cs

/-- No numeric payload of the trees of a child vector is NaN. -/
def no_nan_list : List Node → Bool
  | [] => true
  | c :: cs => no_nan c && no_nan_list cs

end

/-! ### Flattening with the record of the children inlined -/

/-- The loop of `Node::flatten` with the record `acc` of the nodes `expn` whose children have
been spliced into `self`, each taken after its own recursive `flatten`. -/
def flatten_loop_inlined (flatten_rec : Node → Option Node) :
    Nat → Node → Nat → List Node → Option (Node × List Node)
  | 0, _, _, _ => none
  | n + 1, self, i, acc =>
    if i < self.size then
      match self.children.get? i with
      | none => none
      | some at_i =>
        if at_i.type = expansion then
          match (if at_i.has_expansions then flatten_rec at_i else some at_i) with
          | none => none
          | some expn =>
            let self1 := or_flags self expn
            let self2 := set_children self1 (self1.children.eraseIdx i)
            let self3 := set_children self2
              (self2.children.take i ++ expn.children ++ self2.children.drop i)
            flatten_loop_inlined flatten_rec n self3 (i + 1) (acc ++ [expn])
        else
          flatten_loop_inlined flatten_rec n self (i + 1) acc
    else
      some (self, acc)

/-- Transform `Node::flatten()` with the record of the expansion children it inlined. -/
def flatten_inlined : Nat → Node → Option (Node × List Node)
  | 0, _ => none
  | fuel + 1, self =>
    if self.type ≠ block ∧ self.type ≠ expansion ∧ self.type ≠ root then some (self, [])
    else flatten_loop_inlined (flatten fuel) (fuel + 1) self 0 []

/-! ### Nodes used as concrete inputs -/

/-- A `numeric_dimension` node of finite value `x` whose unit is the span of the text `u`. -/
def dimension_node (x : ℚ) (u : List char) : Node :=
  mk numeric_dimension [] (Token.make [])
    { numeric := double.finite 0, dimension := { numeric := double.finite x, unit := Token.make u },
      boolean := false }
    false false false "a.scss" 1

/-- A `number` node of value `x`. -/
def number_node (x : double) : Node :=
  mk number [] (Token.make [])
    { numeric := x, dimension := { numeric := double.finite 0, unit := Token.make [] },
      boolean := false }
    false false false "a.scss" 1

/-- Payload of the nodes below that carry none. -/
def no_value : value_t :=
  { numeric := double.finite 0,
    dimension := { numeric := double.finite 0, unit := Token.make [] }, boolean := false }

/-- An `identifier` node on the one-character text `c`: a statement that is not an expansion. -/
def leaf (c : char) : Node :=
  mk identifier [] (Token.make [c]) no_value false false false "a.scss" 1

/-- A node of tag `t` with the children `cs` and the flag `has_expansions` set to `e`. -/
def container (t : Node_Type) (cs : List Node) (e : Bool) : Node :=
  mk t cs (Token.make []) no_value false false e "a.scss" 1

/-- The root `[A, expansion(B, expansion(C)), D]`, the flag `has_expansions` set on the nodes
that have an expansion child. -/
def nested_root : Node :=
  container root
    [leaf 65, container expansion [leaf 66, container expansion [leaf 67] false] true, leaf 68]
    true

/-- The root `[expansion(expansion(C), B)]` in which the outer expansion has an expansion child
and its flag `has_expansions` unset. -/
def unflagged_root : Node :=
  container root [container expansion [container expansion [leaf 67] false, leaf 66] false] true

/-- The root `[expansion(), expansion(B)]`, whose first expansion has no child. -/
def empty_expansion_root : Node :=
  container root [container expansion [] false, container expansion [leaf 66] false] true

/-- A `simple_selector` node on the text `s`. -/
def selector_node (s : List char) : Node :=
  mk simple_selector [] (Token.make s) no_value false false false "a.scss" 1

/-- A `simple_selector_sequence` node of children `cs`. -/
def sequence_node (cs : List Node) : Node :=
  mk simple_selector_sequence cs (Token.make []) no_value false false false "a.scss" 1

/-- The comma list `(1, 2px)`. -/
def list_node : Node :=
  mk comma_list [number_node (double.finite 1), dimension_node 2 [112, 120]] (Token.make [])
    no_value false false false "a.scss" 1

end Node

/-! ## Properties of the operators of `Token` -/

namespace Token

theorem bytes_length (t : Token) : t.bytes.length = t.end_ - t.begin := by
  have := t.end_le_length
  simp [bytes, List.length_take, List.length_drop]
  omega

theorem bytes_drop_of_lt (t : Token) (p : Nat) (h1 : t.begin ≤ p) (h2 : p < t.end_) :
    t.bytes.drop (p - t.begin) = t.deref p :: t.bytes.drop (p + 1 - t.begin) := by
  have hlen := t.end_le_length
  have hb := bytes_length t
  have hi : p - t.begin < t.bytes.length := by omega
  rw [List.drop_eq_getElem_cons hi]
  have e1 : p + 1 - t.begin = p - t.begin + 1 := by omega
  rw [e1]
  congr 1
  simp only [bytes, deref]
  rw [List.getElem_take, List.getElem_drop]
  have e2 : t.begin + (p - t.begin) = p := by omega
  simp only [e2]
  rw [List.getD_eq_getElem]

theorem bytes_drop_of_ge (t : Token) (p : Nat) (h : t.end_ ≤ p) :
    t.bytes.drop (p - t.begin) = [] := by
  apply List.drop_eq_nil_of_le
  rw [bytes_length]
  omega

theorem lt_loop_eq_lex (t r : Token) :
    ∀ (n p q : Nat), t.begin ≤ p → p ≤ t.end_ → r.begin ≤ q → q ≤ r.end_ → t.end_ - p < n →
      lt_loop t r n p q = lex (t.bytes.drop (p - t.begin)) (r.bytes.drop (q - r.begin)) := by
  intro n
  induction n with
  | zero => intro p q _ _ _ _ h; omega
  | succ n ih =>
    intro p q h1 h2 h3 h4 h5
    by_cases hp : p = t.end_
    · have e1 := bytes_drop_of_ge t p (by omega)
      by_cases hq : q = r.end_
      · have e2 := bytes_drop_of_ge r q (by omega)
        rw [e1, e2]
        simp [lt_loop, hp, hq, lex]
      · have e2 := bytes_drop_of_lt r q h3 (by omega)
        rw [e1, e2]
        simp [lt_loop, hp, hq, lex]
    · have e1 := bytes_drop_of_lt t p h1 (by omega)
      by_cases hq : q = r.end_
      · have e2 := bytes_drop_of_ge r q (by omega)
        rw [e1, e2]
        simp [lt_loop, hp, hq, lex]
      · have e2 := bytes_drop_of_lt r q h3 (by omega)
        have := ih (p + 1) (q + 1) (by omega) (by omega) (by omega) (by omega) (by omega)
        rw [e1, e2]
        simp [lt_loop, hp, hq, lex, this]

theorem lt_eq_lex (t r : Token) : lt t r = lex t.bytes r.bytes := by
  have := lt_loop_eq_lex t r (t.end_ - t.begin + 1) t.begin r.begin (Nat.le_refl _)
    t.begin_le_end (Nat.le_refl _) r.begin_le_end (by omega)
  simpa [lt] using this

theorem lex_iff (a : List char) : ∀ b : List char, lex a b = true ↔
    (∃ k, k ≠ [] ∧ b = a ++ k) ∨
    (∃ pre x y ra rb, a = pre ++ x :: ra ∧ b = pre ++ y :: rb ∧ x < y) := by
  induction a with
  | nil =>
    intro b
    cases b with
    | nil => simp [lex]
    | cons y ys => simp [lex]
  | cons x xs ih =>
    intro b
    cases b with
    | nil => simp [lex]
    | cons y ys =>
      by_cases hyx : y < x
      · simp only [lex, hyx, if_true]
        constructor
        · intro h; cases h
        · rintro (⟨k, -, hk⟩ | ⟨pre, x', y', ra, rb, h1, h2, h3⟩)
          · simp only [List.cons_append, List.cons.injEq] at hk
            exact absurd hyx (by rw [hk.1]; exact lt_irrefl _)
          · cases pre with
            | nil =>
              simp only [List.nil_append, List.cons.injEq] at h1 h2
              rw [h1.1, h2.1] at hyx
              exact absurd h3 (lt_asymm hyx)
            | cons z pre =>
              simp only [List.cons_append, List.cons.injEq] at h1 h2
              rw [h1.1, h2.1] at hyx
              exact absurd hyx (lt_irrefl _)
      · by_cases hxy : x < y
        · simp only [lex, hyx, hxy, if_true, if_false, true_iff]
          exact Or.inr ⟨[], x, y, xs, ys, rfl, rfl, hxy⟩
        · have hxe : x = y := le_antisymm (not_lt.mp hyx) (not_lt.mp hxy)
          subst hxe
          simp only [lex, hyx, if_false, ih ys]
          constructor
          · rintro (⟨k, hk0, hk⟩ | ⟨pre, x', y', ra, rb, h1, h2, h3⟩)
            · exact Or.inl ⟨k, hk0, by simp [hk]⟩
            · exact Or.inr ⟨x :: pre, x', y', ra, rb, by simp [h1], by simp [h2], h3⟩
          · rintro (⟨k, hk0, hk⟩ | ⟨pre, x', y', ra, rb, h1, h2, h3⟩)
            · exact Or.inl ⟨k, hk0, by simpa using hk⟩
            · cases pre with
              | nil =>
                simp only [List.nil_append, List.cons.injEq] at h1 h2
                rw [← h1.1, ← h2.1] at h3
                exact absurd h3 hxy
              | cons z pre =>
                simp only [List.cons_append, List.cons.injEq] at h1 h2
                exact Or.inr ⟨pre, x', y', ra, rb, h1.2, h2.2, h3⟩

theorem bytes_drop_cons (t : Token) (p : Nat) (y : char) (rest : List char)
    (h1 : t.begin ≤ p) (h : t.bytes.drop (p - t.begin) = y :: rest) :
    p < t.end_ ∧ t.deref p = y ∧ t.bytes.drop (p + 1 - t.begin) = rest := by
  have hp : p < t.end_ := by
    by_contra hc
    rw [bytes_drop_of_ge t p (by omega)] at h
    cases h
  rw [bytes_drop_of_lt t p h1 hp] at h
  simp only [List.cons.injEq] at h
  exact ⟨hp, h.1, h.2⟩

theorem bytes_drop_begin (t : Token) : t.bytes.drop (t.begin - t.begin) = t.bytes := by
  simp

theorem unquote_loop_plain (t : Token) (c : char) (hc : c ≠ 92) :
    ∀ (s : List char) (n p : Nat) (result : List char), t.begin ≤ p →
      t.bytes.drop (p - t.begin) = s ++ [c] → (∀ x ∈ s, x ≠ 92) → s.length < n →
      unquote_loop t n p result = result ++ s := by
  intro s
  induction s with
  | nil =>
    intro n p result h1 h2 _ hn
    obtain ⟨hp, hd, hr⟩ := bytes_drop_cons t p c [] h1 h2
    have hlen := congrArg List.length hr
    rw [List.length_drop, bytes_length] at hlen
    simp only [List.length_nil] at hlen
    cases n with
    | zero => simp at hn
    | succ n =>
      have he : p = t.end_ - 1 := by omega
      simp [unquote_loop, hp, hd, hc, he.symm]
  | cons x s ih =>
    intro n p result h1 h2 h3 hn
    obtain ⟨hp, hd, hr⟩ := bytes_drop_cons t p x (s ++ [c]) h1 h2
    have hlen := congrArg List.length hr
    rw [List.length_drop, bytes_length] at hlen
    simp only [List.length_append, List.length_cons, List.length_nil] at hlen
    cases n with
    | zero => simp at hn
    | succ n =>
      have he : p ≠ t.end_ - 1 := by omega
      have hx : x ≠ 92 := h3 x (by simp)
      have := ih n (p + 1) (result ++ [x]) (by omega) hr
        (fun y hy => h3 y (by simp [hy])) (by simpa using hn)
      simp [unquote_loop, hp, hd, hx, he, this]

theorem unquote_plain (t : Token) (q c : char) (s : List char) (hq : q = 39 ∨ q = 34)
    (hc : c ≠ 92) (hs : ∀ x ∈ s, x ≠ 92) (hb : t.bytes = q :: s ++ [c]) :
    t.unquote = s := by
  have h0 : t.bytes.drop (t.begin - t.begin) = q :: (s ++ [c]) := by
    rw [bytes_drop_begin, hb]; rfl
  obtain ⟨hp, hd, hr⟩ := bytes_drop_cons t t.begin q (s ++ [c]) (Nat.le_refl _) h0
  have hlen := congrArg List.length hb
  rw [bytes_length] at hlen
  simp only [List.length_append, List.length_cons, List.length_nil] at hlen
  have := unquote_loop_plain t c hc s (t.end_ - (t.begin + 1) + 1) (t.begin + 1) []
    (by omega) hr hs (by omega)
  simp only [unquote, hd]
  rw [if_pos (by rcases hq with h | h <;> simp [h])]
  simpa using this

theorem lex_append_self (a k : List char) : lex (a ++ k) a = false := by
  induction a with
  | nil => cases k <;> simp [lex]
  | cons x a ih => simp [lex, ih]

/-- C9. `a < b` on spans is the lexicographic comparison of the raw characters: it holds
exactly when the characters of `a` are a strict prefix of those of `b`, or the two spans share
a prefix after which the character of `a` is less than the character of `b`.  So a strict
prefix is less than its extension, the extension is not less than the prefix, and spans with
the same characters are not less than each other. -/
theorem lt_lexicographic (a b : Token) :
    (lt a b = true ↔
      (∃ k, k ≠ [] ∧ b.bytes = a.bytes ++ k) ∨
      (∃ pre x y ra rb, a.bytes = pre ++ x :: ra ∧ b.bytes = pre ++ y :: rb ∧ x < y)) ∧
    ((∃ k, k ≠ [] ∧ b.bytes = a.bytes ++ k) → lt a b = true ∧ lt b a = false) ∧
    (a.bytes = b.bytes → lt a b = false ∧ lt b a = false) := by
  refine ⟨?_, ?_, ?_⟩
  · rw [lt_eq_lex]
    exact lex_iff a.bytes b.bytes
  · rintro ⟨k, hk0, hk⟩
    constructor
    · rw [lt_eq_lex]
      exact (lex_iff a.bytes b.bytes).mpr (Or.inl ⟨k, hk0, hk⟩)
    · rw [lt_eq_lex, hk]
      exact lex_append_self a.bytes k
  · intro h
    have := lex_append_self b.bytes []
    simp only [List.append_nil] at this
    rw [lt_eq_lex, lt_eq_lex, h]
    exact ⟨this, this⟩

/-- Instance of C9: the span `"a` is less than its extension `"a"`, the extension is not less
than it, and the span `"a"` is not less than itself. -/
theorem lt_lexicographic_witness :
    lt (make [34, 97]) (make [34, 97, 34]) = true ∧
      lt (make [34, 97, 34]) (make [34, 97]) = false ∧
      lt (make [34, 97, 34]) (make [34, 97, 34]) = false :=
  ⟨((lt_lexicographic (make [34, 97]) (make [34, 97, 34])).2.1 ⟨[34], by decide, by decide⟩).1,
    ((lt_lexicographic (make [34, 97]) (make [34, 97, 34])).2.1 ⟨[34], by decide, by decide⟩).2,
    ((lt_lexicographic (make [34, 97, 34]) (make [34, 97, 34])).2.2 rfl).1⟩

/-- C8, at the failing input.  The spans `dangling_n` and `dangling_t` have the same length and
the same raw characters (a quote and a backslash), and `==` returns false on them: each `unquote`
decodes the final backslash together with the character that follows the span in the text. -/
theorem eq_same_bytes_false :
    dangling_n.length = dangling_t.length ∧ dangling_n.bytes = dangling_t.bytes ∧
      dangling_n.unquote = [10] ∧ dangling_t.unquote = [9] ∧
      eq dangling_n dangling_t = false := by
  decide

/-- C10. Span equality does not see the quote style and span ordering does: for a text `s`
without backslash, the span `'s'` and the span `"s"` are equal under `==` (both ways), and
under `<` the double-quoted span is less than the single-quoted one and not conversely, the
pair being ordered by its leading quote characters. -/
theorem quote_style_insensitive (a b : Token) (s : List char) (hs : ∀ c ∈ s, c ≠ 92)
    (ha : a.bytes = 39 :: s ++ [39]) (hb : b.bytes = 34 :: s ++ [34]) :
    eq a b = true ∧ eq b a = true ∧ lt b a = true ∧ lt a b = false := by
  have ua := unquote_plain a 39 39 s (Or.inl rfl) (by decide) hs ha
  have ub := unquote_plain b 34 34 s (Or.inr rfl) (by decide) hs hb
  have la := bytes_length a
  have lb := bytes_length b
  rw [ha] at la
  rw [hb] at lb
  simp only [List.length_append, List.length_cons, List.length_nil] at la lb
  have da : a.deref a.begin = 39 :=
    (bytes_drop_cons a a.begin 39 (s ++ [39]) (Nat.le_refl _)
      (by rw [bytes_drop_begin, ha]; rfl)).2.1
  have db : b.deref b.begin = 34 :=
    (bytes_drop_cons b b.begin 34 (s ++ [34]) (Nat.le_refl _)
      (by rw [bytes_drop_begin, hb]; rfl)).2.1
  have hl : a.length = b.length := by simp only [length]; omega
  refine ⟨?_, ?_, ?_, ?_⟩
  · simp [eq, hl, da, db, ua, ub]
  · simp [eq, hl, da, db, ua, ub]
  · rw [lt_eq_lex, ha, hb]; simp [lex]
  · rw [lt_eq_lex, ha, hb]; simp [lex]

/-- Instance of C10 at `s = abc`. -/
theorem quote_style_insensitive_witness :
    eq single_quoted_abc double_quoted_abc = true ∧
      eq double_quoted_abc single_quoted_abc = true ∧
      lt double_quoted_abc single_quoted_abc = true ∧
      lt single_quoted_abc double_quoted_abc = false :=
  quote_style_insensitive single_quoted_abc double_quoted_abc [97, 98, 99]
    (by decide) (by decide) (by decide)

/-- The loop of `Token::operator==` compares the characters that remain in the two spans; its
result does not depend on the counter once the counter exceeds the number of characters left. -/
theorem eq_loop_eq (t r : Token) :
    ∀ (n p q : Nat), t.begin ≤ p → p ≤ t.end_ → r.begin ≤ q → t.end_ - p = r.end_ - q →
      t.end_ - p < n →
      eq_loop t r n p q =
        decide (t.bytes.drop (p - t.begin) = r.bytes.drop (q - r.begin)) := by
  intro n
  induction n with
  | zero => intro p q _ _ _ _ h; omega
  | succ n ih =>
    intro p q h1 h2 h3 h4 h5
    by_cases hp : p < t.end_
    · have e1 := bytes_drop_of_lt t p h1 hp
      have e2 := bytes_drop_of_lt r q h3 (by omega)
      have := ih (p + 1) (q + 1) (by omega) (by omega) (by omega) (by omega) (by omega)
      rw [e1, e2]
      by_cases hd : t.deref p = r.deref q
      · simp [eq_loop, hp, hd, this]
      · simp [eq_loop, hp, hd]
    · have e1 := bytes_drop_of_ge t p (by omega)
      have e2 := bytes_drop_of_ge r q (by omega)
      rw [e1, e2]
      simp [eq_loop, hp]

/-- The loop of the unquoted branch of `unquote` appends the characters that remain in the span;
its result does not depend on the counter once the counter exceeds their number. -/
theorem copy_loop_eq (t : Token) :
    ∀ (n p : Nat) (result : List char), t.begin ≤ p → t.end_ - p < n →
      copy_loop t n p result = result ++ t.bytes.drop (p - t.begin) := by
  intro n
  induction n with
  | zero => intro p _ _ h; omega
  | succ n ih =>
    intro p result h1 h2
    by_cases hp : p < t.end_
    · rw [bytes_drop_of_lt t p h1 hp]
      simp [copy_loop, hp, ih (p + 1) (result ++ [t.deref p]) (by omega) (by omega)]
    · rw [bytes_drop_of_ge t p (by omega)]
      simp [copy_loop, hp]

/-- The loop of the quoted branch of `unquote` does not depend on the counter once the counter
exceeds the number of characters left in the span: the counter is never exhausted. -/
theorem unquote_loop_counter (t : Token) :
    ∀ (n m p : Nat) (result : List char), t.end_ - p < n → t.end_ - p < m →
      unquote_loop t n p result = unquote_loop t m p result := by
  intro n
  induction n with
  | zero => intro m p _ h; omega
  | succ n ih =>
    intro m p result hn hm
    cases m with
    | zero => omega
    | succ m =>
      by_cases hp : p < t.end_
      · simp only [unquote_loop, hp, if_true]
        rw [ih m (p + 1 + 1) _ (by omega) (by omega), ih m (p + 1) _ (by omega) (by omega)]
      · simp [unquote_loop, hp]

/-- A span that does not start with a quote decodes to its raw characters. -/
theorem unquote_of_not_quoted (t : Token)
    (h : ¬ (t.deref t.begin = 39 ∨ t.deref t.begin = 34)) : t.unquote = t.bytes := by
  simp only [unquote, if_neg h]
  rw [copy_loop_eq t _ t.begin [] (Nat.le_refl _) (by omega)]
  simp

/-- What `Token::operator==` computes: false on different lengths; on equal lengths the
comparison of the decoded texts when both spans start with a quote, and the comparison of the
raw characters otherwise. -/
theorem eq_eq (t r : Token) :
    eq t r =
      (decide (t.length = r.length) &&
        (if (t.deref t.begin = 34 ∨ t.deref t.begin = 39) ∧
            (r.deref r.begin = 34 ∨ r.deref r.begin = 39) then
          decide (t.unquote = r.unquote)
        else decide (t.bytes = r.bytes))) := by
  by_cases hl : t.length = r.length
  · have hl2 : t.end_ - t.begin = r.end_ - r.begin := hl
    have := eq_loop_eq t r (t.end_ - t.begin + 1) t.begin r.begin (Nat.le_refl _)
      t.begin_le_end (Nat.le_refl _) hl2 (by omega)
    simp only [Nat.sub_self, List.drop_zero] at this
    simp only [eq, hl, this, ne_eq, not_true_eq_false, if_false, decide_True, Bool.true_and]
  · simp [eq, hl]

theorem escapes_closed_cons_cons (x d : char) (rest : List char) :
    escapes_closed (x :: d :: rest) =
      if x = 92 then escapes_closed rest else escapes_closed (d :: rest) := by
  simp [escapes_closed]

/-- On a body of plain characters and complete escapes that is followed in the span by one
last character other than a backslash, the loop of `unquote` appends the reference decoding of
the body and stops on the last character. -/
theorem unquote_loop_closed (t : Token) (c : char) (hc : c ≠ 92) :
    ∀ (n p : Nat) (result body : List char), t.begin ≤ p →
      t.bytes.drop (p - t.begin) = body ++ [c] → escapes_closed body = true →
      body.length < n → unquote_loop t n p result = result ++ reference_decode body := by
  intro n
  induction n with
  | zero => intro p result body _ _ _ h; omega
  | succ n ih =>
    intro p result body h1 h2 h3 hn
    match body, h2, h3, hn with
    | [], h2, _, _ =>
      obtain ⟨hp, hd, hr⟩ := bytes_drop_cons t p c [] h1 h2
      have hlen := congrArg List.length hr
      rw [List.length_drop, bytes_length] at hlen
      simp only [List.length_nil] at hlen
      have he : p = t.end_ - 1 := by omega
      simp [unquote_loop, hp, hd, hc, he.symm, reference_decode]
    | [x], h2, h3, hn =>
      obtain ⟨hp, hd, hr⟩ := bytes_drop_cons t p x [c] h1 h2
      have hx : x ≠ 92 := by simpa [escapes_closed] using h3
      have hlen := congrArg List.length hr
      rw [List.length_drop, bytes_length] at hlen
      simp only [List.length_cons, List.length_nil] at hlen
      have he : p ≠ t.end_ - 1 := by omega
      have hn' : 0 < n := by simpa using hn
      have := ih (p + 1) (result ++ [x]) [] (by omega) hr rfl hn'
      simp [unquote_loop, hp, hd, hx, he, this, reference_decode]
    | x :: d :: rest, h2, h3, hn =>
      obtain ⟨hp, hd, hr⟩ := bytes_drop_cons t p x (d :: rest ++ [c]) h1 h2
      obtain ⟨hp2, hd2, hr2⟩ := bytes_drop_cons t (p + 1) d (rest ++ [c]) (by omega) hr
      have hlen := congrArg List.length hr
      rw [List.length_drop, bytes_length] at hlen
      simp only [List.length_append, List.length_cons, List.length_nil] at hlen
      have he : p ≠ t.end_ - 1 := by omega
      simp only [List.length_cons] at hn
      rw [escapes_closed_cons_cons] at h3
      by_cases hx : x = 92
      · rw [if_pos hx] at h3
        have := ih (p + 1 + 1) (result ++ [escape d]) rest (by omega) hr2 h3 (by omega)
        simp [unquote_loop, hp, hd, hd2, hx, this, reference_decode]
      · rw [if_neg hx] at h3
        have := ih (p + 1) (result ++ [x]) (d :: rest) (by omega) hr h3
          (by simp only [List.length_cons]; omega)
        simp [unquote_loop, hp, hd, hx, he, this, reference_decode]

/-- A span made of a quote, a body of plain characters and complete escapes, and one last
character other than a backslash decodes to the reference decoding of the body. -/
theorem unquote_closed (t : Token) (q c : char) (body : List char) (hq : q = 39 ∨ q = 34)
    (hc : c ≠ 92) (hs : escapes_closed body = true) (hb : t.bytes = q :: body ++ [c]) :
    t.unquote = reference_decode body := by
  have h0 : t.bytes.drop (t.begin - t.begin) = q :: (body ++ [c]) := by
    rw [bytes_drop_begin, hb]; rfl
  obtain ⟨hp, hd, hr⟩ := bytes_drop_cons t t.begin q (body ++ [c]) (Nat.le_refl _) h0
  have hlen := congrArg List.length hb
  rw [bytes_length] at hlen
  simp only [List.length_append, List.length_cons, List.length_nil] at hlen
  have := unquote_loop_closed t c hc (t.end_ - (t.begin + 1) + 1) (t.begin + 1) [] body
    (by omega) hr hs (by omega)
  simp only [unquote, hd]
  rw [if_pos (by rcases hq with h | h <;> simp [h])]
  simpa using this

/-- A span that is a single quote decodes to the empty text. -/
theorem unquote_single_quote (t : Token) (q : char) (hq : q = 39 ∨ q = 34)
    (hb : t.bytes = [q]) : t.unquote = [] := by
  have h0 : t.bytes.drop (t.begin - t.begin) = q :: [] := by
    rw [bytes_drop_begin, hb]
  obtain ⟨hp, hd, _⟩ := bytes_drop_cons t t.begin q [] (Nat.le_refl _) h0
  have hlen := congrArg List.length hb
  rw [bytes_length] at hlen
  simp only [List.length_cons, List.length_nil] at hlen
  have he : ¬ (t.begin + 1 < t.end_) := by omega
  simp only [unquote, hd]
  rw [if_pos (by rcases hq with h | h <;> simp [h])]
  simp [unquote_loop, he]

/-- The three decodings given as examples for `unquote`: the quoted `a\nb` gives `a`, newline,
`b`; `plain` is unchanged; the quoted `x` gives `x`. -/
theorem unquote_examples :
    double_quoted_escape.unquote = [97, 10, 98] ∧
      (make [112, 108, 97, 105, 110]).unquote = [112, 108, 97, 105, 110] ∧
      (make [39, 120, 39]).unquote = [120] := by
  decide

/-- C11, at the failing input.  The span `"a\` is a quote, the body `a` (a plain character) and
one last character, the backslash; the reference decoding of the body is `a`, and `unquote`
returns `a` followed by NUL: the last backslash is decoded as an escape together with the
character that follows the span, here the terminating NUL of the text. -/
theorem unquote_final_backslash :
    open_escape.bytes = 34 :: ([97] ++ [92]) ∧ escapes_closed [97] = true ∧
      reference_decode [97] = [97] ∧ open_escape.unquote = [97, 0] := by
  decide

/-- C12, amended.  For a span made of a quote, an interior of plain characters and complete
two-character escapes, and a last character other than a backslash, `unquote` returns the
reference decoding of the interior: the last character is not copied, and two such spans with
the same interior decode to the same text whatever their quotes and last characters. -/
theorem unquote_interior (a b : Token) (qa qb ca cb : char) (body : List char)
    (hqa : qa = 39 ∨ qa = 34) (hqb : qb = 39 ∨ qb = 34) (hca : ca ≠ 92) (hcb : cb ≠ 92)
    (hs : escapes_closed body = true) (ha : a.bytes = qa :: body ++ [ca])
    (hb : b.bytes = qb :: body ++ [cb]) :
    a.unquote = reference_decode body ∧ a.unquote = b.unquote := by
  have h1 := unquote_closed a qa ca body hqa hca hs ha
  have h2 := unquote_closed b qb cb body hqb hcb hs hb
  exact ⟨h1, by rw [h1, h2]⟩

/-- Instance of C12, amended: the spans `"a\nb"` and `'a\nb'` both decode to `a`, newline,
`b`. -/
theorem unquote_interior_witness :
    double_quoted_escape.unquote = reference_decode [97, 92, 110, 98] ∧
      double_quoted_escape.unquote = single_quoted_escape.unquote :=
  unquote_interior double_quoted_escape single_quoted_escape 34 39 34 39 [97, 92, 110, 98]
    (by decide) (by decide) (by decide) (by decide) (by decide) (by decide) (by decide)

/-- C12, counterexample.  The spans `"a\"` and `"a\'` have length four, start with a quote and
have the same characters between the first and the last position (`a` and a backslash); they
decode to `a"` and `a'`: the character at the last position is copied as the escaped character
of the backslash before it. -/
theorem unquote_copies_final_byte :
    escaped_close_double.bytes = 34 :: ([97, 92] ++ [34]) ∧
      escaped_close_single.bytes = 34 :: ([97, 92] ++ [39]) ∧
      escaped_close_double.unquote = [97, 34] ∧
      escaped_close_single.unquote = [97, 39] ∧
      escaped_close_double.unquote ≠ escaped_close_single.unquote := by
  decide

theorem unquote_loop_append (t : Token) :
    ∀ (n p : Nat) (x y : List char),
      unquote_loop t n p (x ++ y) = x ++ unquote_loop t n p y := by
  intro n
  induction n with
  | zero => intro p x y; simp [unquote_loop]
  | succ n ih =>
    intro p x y
    simp only [unquote_loop]
    split
    · split
      · rw [List.append_assoc, ih]
      · split
        · rfl
        · rw [List.append_assoc, ih]
    · rfl

theorem unquote_to_stream_loop_eq (t : Token) :
    ∀ (n p : Nat) (buf : List char),
      unquote_to_stream_loop t n p buf = unquote_loop t n p buf := by
  intro n
  induction n with
  | zero => intro p buf; simp [unquote_loop, unquote_to_stream_loop]
  | succ n ih =>
    intro p buf
    simp only [unquote_loop, unquote_to_stream_loop, ih]

theorem copy_loop_append (t : Token) :
    ∀ (n p : Nat) (x y : List char), copy_loop t n p (x ++ y) = x ++ copy_loop t n p y := by
  intro n
  induction n with
  | zero => intro p x y; simp [copy_loop]
  | succ n ih =>
    intro p x y
    simp only [copy_loop]
    split
    · rw [List.append_assoc, ih]
    · rfl

theorem copy_to_stream_loop_eq (t : Token) :
    ∀ (n p : Nat) (buf : List char), copy_to_stream_loop t n p buf = copy_loop t n p buf := by
  intro n
  induction n with
  | zero => intro p buf; simp [copy_loop, copy_to_stream_loop]
  | succ n ih =>
    intro p buf
    simp only [copy_loop, copy_to_stream_loop, ih]

/-- C13. `unquote_to_stream` performs the decoding of `unquote`: for every span and every prior
content `buf` of the sink, the sink holds afterwards `buf` followed by the text that
`unquote()` returns for the span. -/
theorem unquote_to_stream_eq (t : Token) (buf : List char) :
    unquote_to_stream t buf = buf ++ unquote t := by
  simp only [unquote_to_stream, unquote]
  split
  · rw [unquote_to_stream_loop_eq]
    have := unquote_loop_append t (t.end_ - (t.begin + 1) + 1) (t.begin + 1) buf []
    simpa using this
  · rw [copy_to_stream_loop_eq]
    have := copy_loop_append t (t.end_ - t.begin + 1) t.begin buf []
    simpa using this

/-- When every escaping backslash from `p` on is followed by a character of the span, the loop
of `unquote` leaves by its own test, returns what `unquote_loop` returns, and reads positions
of the span only. -/
theorem unquote_loop_reads_closed (t : Token) :
    ∀ (n p : Nat) (result : List char) (reads : List Nat), t.begin ≤ p →
      escapes_closed (t.bytes.drop (p - t.begin)) = true → t.end_ - p < n →
      (∀ x ∈ reads, t.begin ≤ x ∧ x < t.end_) →
      ∃ rs, unquote_loop_reads t n p result reads = some (unquote_loop t n p result, rs) ∧
        ∀ x ∈ rs, t.begin ≤ x ∧ x < t.end_ := by
  intro n
  induction n with
  | zero => intro p _ _ _ _ h; omega
  | succ n ih =>
    intro p result reads h1 h2 h3 h4
    by_cases hp : p < t.end_
    · rw [bytes_drop_of_lt t p h1 hp] at h2
      by_cases hd : t.deref p = 92
      · cases hrest : t.bytes.drop (p + 1 - t.begin) with
        | nil => rw [hrest, hd] at h2; simp [escapes_closed] at h2
        | cons d rest =>
          obtain ⟨hp2, _, hr2⟩ := bytes_drop_cons t (p + 1) d rest (by omega) hrest
          rw [hrest, escapes_closed_cons_cons, if_pos hd, ← hr2] at h2
          obtain ⟨rs, e1, e2⟩ := ih (p + 1 + 1) (result ++ [escape (t.deref (p + 1))])
            (reads ++ [p, p + 1]) (by omega) h2 (by omega) (by
              intro x hx
              simp only [List.mem_append, List.mem_cons, List.mem_singleton,
                List.not_mem_nil, or_false] at hx
              rcases hx with hx | hx | hx
              · exact h4 x hx
              · omega
              · omega)
          exact ⟨rs, by simp only [unquote_loop_reads, unquote_loop, hp, hd, if_true, e1], e2⟩
      · by_cases he : p = t.end_ - 1
        · refine ⟨reads ++ [p], by simp [unquote_loop_reads, unquote_loop, hp, hd, ← he], ?_⟩
          intro x hx
          simp only [List.mem_append, List.mem_singleton] at hx
          rcases hx with hx | hx
          · exact h4 x hx
          · omega
        · cases hrest : t.bytes.drop (p + 1 - t.begin) with
          | nil =>
            have hl := congrArg List.length hrest
            rw [List.length_drop, bytes_length] at hl
            simp only [List.length_nil] at hl
            omega
          | cons d rest =>
            rw [hrest, escapes_closed_cons_cons, if_neg hd, ← hrest] at h2
            obtain ⟨rs, e1, e2⟩ := ih (p + 1) (result ++ [t.deref p]) (reads ++ [p, p])
              (by omega) h2 (by omega) (by
                intro x hx
                simp only [List.mem_append, List.mem_cons, List.mem_singleton,
                  List.not_mem_nil, or_false] at hx
                rcases hx with hx | hx | hx
                · exact h4 x hx
                · omega
                · omega)
            exact ⟨rs, by
              simp only [unquote_loop_reads, unquote_loop, hp, hd, he, if_true, if_false, e1],
              e2⟩
    · exact ⟨reads, by simp [unquote_loop_reads, unquote_loop, hp], h4⟩

/-- The loop of the unquoted branch of `unquote` leaves by its own test, returns what
`copy_loop` returns, and reads positions of the span only. -/
theorem copy_loop_reads_spec (t : Token) :
    ∀ (n p : Nat) (result : List char) (reads : List Nat), t.begin ≤ p → t.end_ - p < n →
      (∀ x ∈ reads, t.begin ≤ x ∧ x < t.end_) →
      ∃ rs, copy_loop_reads t n p result reads = some (copy_loop t n p result, rs) ∧
        ∀ x ∈ rs, t.begin ≤ x ∧ x < t.end_ := by
  intro n
  induction n with
  | zero => intro p _ _ _ h; omega
  | succ n ih =>
    intro p result reads h1 h3 h4
    by_cases hp : p < t.end_
    · obtain ⟨rs, e1, e2⟩ := ih (p + 1) (result ++ [t.deref p]) (reads ++ [p])
        (by omega) (by omega) (by
          intro x hx
          simp only [List.mem_append, List.mem_singleton] at hx
          rcases hx with hx | hx
          · exact h4 x hx
          · omega)
      exact ⟨rs, by simp only [copy_loop_reads, copy_loop, hp, if_true, e1], e2⟩
    · exact ⟨reads, by simp [copy_loop_reads, copy_loop, hp], h4⟩

theorem unquote_to_stream_loop_reads_eq (t : Token) :
    ∀ (n p : Nat) (buf : List char) (reads : List Nat),
      unquote_to_stream_loop_reads t n p buf reads = unquote_loop_reads t n p buf reads := by
  intro n
  induction n with
  | zero => intro p buf reads; simp [unquote_loop_reads, unquote_to_stream_loop_reads]
  | succ n ih =>
    intro p buf reads
    simp only [unquote_loop_reads, unquote_to_stream_loop_reads, ih]

theorem copy_to_stream_loop_reads_eq (t : Token) :
    ∀ (n p : Nat) (buf : List char) (reads : List Nat),
      copy_to_stream_loop_reads t n p buf reads = copy_loop_reads t n p buf reads := by
  intro n
  induction n with
  | zero => intro p buf reads; simp [copy_loop_reads, copy_to_stream_loop_reads]
  | succ n ih =>
    intro p buf reads
    simp only [copy_loop_reads, copy_to_stream_loop_reads, ih]

/-- The loop of `unquote` with the positions read leaves by its own test and returns the text of
`unquote_loop`, on every span. -/
theorem unquote_loop_reads_fst (t : Token) :
    ∀ (n p : Nat) (result : List char) (reads : List Nat), t.end_ - p < n →
      ∃ rs, unquote_loop_reads t n p result reads = some (unquote_loop t n p result, rs) := by
  intro n
  induction n with
  | zero => intro p _ _ h; omega
  | succ n ih =>
    intro p result reads h
    simp only [unquote_loop_reads, unquote_loop]
    by_cases hp : p < t.end_
    · simp only [hp, if_true]
      by_cases hd : t.deref p = 92
      · simp only [hd, if_true]
        exact ih _ _ _ (by omega)
      · simp only [hd, if_false]
        by_cases he : p = t.end_ - 1
        · simp only [← he, if_true]
          exact ⟨_, rfl⟩
        · simp only [he, if_false]
          exact ih _ _ _ (by omega)
    · simp only [hp, if_false]
      exact ⟨_, rfl⟩

/-- The copying loop with the positions read returns the text of `copy_loop`, on every span. -/
theorem copy_loop_reads_fst (t : Token) :
    ∀ (n p : Nat) (result : List char) (reads : List Nat), t.end_ - p < n →
      ∃ rs, copy_loop_reads t n p result reads = some (copy_loop t n p result, rs) := by
  intro n
  induction n with
  | zero => intro p _ _ h; omega
  | succ n ih =>
    intro p result reads h
    simp only [copy_loop_reads, copy_loop]
    by_cases hp : p < t.end_
    · simp only [hp, if_true]
      exact ih _ _ _ (by omega)
    · simp only [hp, if_false]
      exact ⟨_, rfl⟩

/-- On every span the two decoders with the positions read return the texts of `unquote` and of
`unquote_to_stream`. -/
theorem decoders_reads_fst (t : Token) (buf : List char) :
    (∃ rs, t.unquote_reads = some (t.unquote, rs)) ∧
      (∃ rs, t.unquote_to_stream_reads buf = some (t.unquote_to_stream buf, rs)) := by
  constructor
  · simp only [unquote_reads, unquote]
    split
    · exact unquote_loop_reads_fst t _ _ _ _ (by omega)
    · exact copy_loop_reads_fst t _ _ _ _ (by omega)
  · simp only [unquote_to_stream_reads, unquote_to_stream]
    split
    · rw [unquote_to_stream_loop_reads_eq, unquote_to_stream_loop_eq]
      exact unquote_loop_reads_fst t _ _ _ _ (by omega)
    · rw [copy_to_stream_loop_reads_eq, copy_to_stream_loop_eq]
      exact copy_loop_reads_fst t _ _ _ _ (by omega)

/-- C20. Bounds safety of the decoders.  For a non-empty span that does not start with a quote,
or that starts with one and in which every escaping backslash after the quote is followed by a
character of the span, `unquote` and `unquote_to_stream` leave their loops by the loop test
(the counter is not exhausted), return the texts of `unquote` and `unquote_to_stream`, and
dereference only positions `x` with `begin ≤ x < end`. -/
theorem decoders_read_inside (t : Token) (buf : List char) (hne : 0 < t.length)
    (h : (t.deref t.begin = 39 ∨ t.deref t.begin = 34) →
      escapes_closed (t.bytes.drop 1) = true) :
    (∃ rs, t.unquote_reads = some (t.unquote, rs) ∧ ∀ x ∈ rs, t.begin ≤ x ∧ x < t.end_) ∧
    (∃ rs, t.unquote_to_stream_reads buf = some (t.unquote_to_stream buf, rs) ∧
      ∀ x ∈ rs, t.begin ≤ x ∧ x < t.end_) := by
  have hlen : t.begin < t.end_ := by simp only [length] at hne; omega
  have h0 : ∀ x ∈ [t.begin], t.begin ≤ x ∧ x < t.end_ := by
    intro x hx
    simp only [List.mem_singleton] at hx
    omega
  have e1 : t.begin + 1 - t.begin = 1 := by omega
  by_cases hq : t.deref t.begin = 39 ∨ t.deref t.begin = 34
  · have hc := h hq
    constructor
    · simp only [unquote_reads, unquote, if_pos hq]
      exact unquote_loop_reads_closed t _ (t.begin + 1) [] [t.begin] (by omega)
        (by rw [e1]; exact hc) (by omega) h0
    · simp only [unquote_to_stream_reads, unquote_to_stream, if_pos hq]
      rw [unquote_to_stream_loop_reads_eq, unquote_to_stream_loop_eq]
      exact unquote_loop_reads_closed t _ (t.begin + 1) buf [t.begin] (by omega)
        (by rw [e1]; exact hc) (by omega) h0
  · constructor
    · simp only [unquote_reads, unquote, if_neg hq]
      exact copy_loop_reads_spec t _ t.begin [] [t.begin] (Nat.le_refl _) (by omega) h0
    · simp only [unquote_to_stream_reads, unquote_to_stream, if_neg hq]
      rw [copy_to_stream_loop_reads_eq, copy_to_stream_loop_eq]
      exact copy_loop_reads_spec t _ t.begin buf [t.begin] (Nat.le_refl _) (by omega) h0

/-- Instance of C20 on the span `"a\nb"` and the sink content `x`. -/
theorem decoders_read_inside_witness :
    (∃ rs, double_quoted_escape.unquote_reads = some (double_quoted_escape.unquote, rs) ∧
      ∀ x ∈ rs, double_quoted_escape.begin ≤ x ∧ x < double_quoted_escape.end_) ∧
    (∃ rs, double_quoted_escape.unquote_to_stream_reads [120] =
        some (double_quoted_escape.unquote_to_stream [120], rs) ∧
      ∀ x ∈ rs, double_quoted_escape.begin ≤ x ∧ x < double_quoted_escape.end_) :=
  decoders_read_inside double_quoted_escape [120] (by decide) (fun _ => by decide)

/-- On the span `"a\`, whose last backslash is followed by no character of the span, `unquote`
reads position 3, which is the position `end`. -/
theorem unquote_reads_outside :
    open_escape.end_ = 3 ∧ open_escape.unquote_reads = some ([97, 0], [0, 1, 1, 2, 3]) := by
  decide

theorem eq_iff (t r : Token) :
    eq t r = true ↔
      t.length = r.length ∧
        (if (t.deref t.begin = 34 ∨ t.deref t.begin = 39) ∧
            (r.deref r.begin = 34 ∨ r.deref r.begin = 39) then
          t.unquote = r.unquote
        else t.bytes = r.bytes) := by
  rw [eq_eq]
  by_cases hq : (t.deref t.begin = 34 ∨ t.deref t.begin = 39) ∧
      (r.deref r.begin = 34 ∨ r.deref r.begin = 39)
  · simp only [if_pos hq, Bool.and_eq_true, decide_eq_true_eq]
  · simp only [if_neg hq, Bool.and_eq_true, decide_eq_true_eq]

/-- The first character of a non-empty span is the character at `begin`. -/
theorem bytes_eq_cons (t : Token) (h : 0 < t.length) :
    t.bytes = t.deref t.begin :: t.bytes.drop 1 := by
  have hlt : t.begin < t.end_ := by simp only [length] at h; omega
  have := bytes_drop_of_lt t t.begin (Nat.le_refl _) hlt
  have e1 : t.begin + 1 - t.begin = 1 := by omega
  simpa [e1] using this

theorem deref_begin_eq (t r : Token) (ht : 0 < t.length) (hr : 0 < r.length)
    (h : t.bytes = r.bytes) : t.deref t.begin = r.deref r.begin := by
  rw [bytes_eq_cons t ht, bytes_eq_cons r hr] at h
  exact (List.cons.inj h).1

/-- Every span is equal to itself. -/
theorem eq_refl_all (a : Token) : eq a a = true := by
  rw [eq_iff]
  refine ⟨rfl, ?_⟩
  split <;> rfl

/-- Span equality is symmetric. -/
theorem eq_symm_all (a b : Token) : eq a b = true → eq b a = true := by
  rw [eq_iff, eq_iff]
  rintro ⟨h1, h2⟩
  refine ⟨h1.symm, ?_⟩
  by_cases hq : (a.deref a.begin = 34 ∨ a.deref a.begin = 39) ∧
      (b.deref b.begin = 34 ∨ b.deref b.begin = 39)
  · rw [if_pos hq] at h2
    rw [if_pos ⟨hq.2, hq.1⟩]
    exact h2.symm
  · rw [if_neg hq] at h2
    rw [if_neg (fun h => hq ⟨h.2, h.1⟩)]
    exact h2.symm

/-- Span equality is transitive on non-empty spans. -/
theorem eq_trans_nonempty (a b c : Token) (ha : 0 < a.length) (hb : 0 < b.length)
    (hc : 0 < c.length) : eq a b = true → eq b c = true → eq a c = true := by
  rw [eq_iff, eq_iff, eq_iff]
  rintro ⟨h1, h2⟩ ⟨h3, h4⟩
  refine ⟨h1.trans h3, ?_⟩
  by_cases hab : (a.deref a.begin = 34 ∨ a.deref a.begin = 39) ∧
      (b.deref b.begin = 34 ∨ b.deref b.begin = 39)
  · rw [if_pos hab] at h2
    by_cases hbc : (b.deref b.begin = 34 ∨ b.deref b.begin = 39) ∧
        (c.deref c.begin = 34 ∨ c.deref c.begin = 39)
    · rw [if_pos hbc] at h4
      rw [if_pos ⟨hab.1, hbc.2⟩]
      exact h2.trans h4
    · rw [if_neg hbc] at h4
      have hd := deref_begin_eq b c hb hc h4
      exact absurd ⟨hab.2, by rw [← hd]; exact hab.2⟩ hbc
  · rw [if_neg hab] at h2
    have hd := deref_begin_eq a b ha hb h2
    have hqb : ¬ (b.deref b.begin = 34 ∨ b.deref b.begin = 39) := by
      intro h
      exact hab ⟨by rw [hd]; exact h, h⟩
    have hqa : ¬ (a.deref a.begin = 34 ∨ a.deref a.begin = 39) := by
      rw [hd]; exact hqb
    rw [if_neg (fun h => hqb h.1)] at h4
    rw [if_neg (fun h => hqa h.1)]
    exact h2.trans h4

/-- Two empty spans are equal. -/
theorem eq_of_empty (a c : Token) (ha : a.length = 0) (hc : c.length = 0) :
    eq a c = true := by
  rw [eq_iff]
  refine ⟨by rw [ha, hc], ?_⟩
  have la : ¬ (a.begin + 1 < a.end_) := by simp only [length] at ha; omega
  have lc : ¬ (c.begin + 1 < c.end_) := by simp only [length] at hc; omega
  have ba : a.bytes = [] := List.eq_nil_of_length_eq_zero (by rw [bytes_length]; exact ha)
  have bc : c.bytes = [] := List.eq_nil_of_length_eq_zero (by rw [bytes_length]; exact hc)
  split
  · rename_i hq
    simp only [unquote, if_pos (Or.symm hq.1), if_pos (Or.symm hq.2)]
    simp [unquote_loop, la, lc]
  · rw [ba, bc]

/-- Span equality is transitive. -/
theorem eq_trans_all (a b c : Token) : eq a b = true → eq b c = true → eq a c = true := by
  intro h1 h2
  have l1 := ((eq_iff a b).mp h1).1
  have l2 := ((eq_iff b c).mp h2).1
  by_cases ha : a.length = 0
  · exact eq_of_empty a c ha (by omega)
  · exact eq_trans_nonempty a b c (by omega) (by omega) (by omega) h1 h2

/-- C18. On non-empty spans `==` is an equivalence relation: it is reflexive, symmetric and
transitive. -/
theorem eq_equivalence (a b c : Token) (ha : 0 < a.length) (hb : 0 < b.length)
    (hc : 0 < c.length) :
    eq a a = true ∧ (eq a b = true → eq b a = true) ∧
      (eq a b = true → eq b c = true → eq a c = true) :=
  ⟨eq_refl_all a, eq_symm_all a b, eq_trans_nonempty a b c ha hb hc⟩

/-- Instance of C18 on the spans `'abc'`, `"abc"` and `'abc'`. -/
theorem eq_equivalence_witness :
    eq single_quoted_abc single_quoted_abc = true ∧
      (eq single_quoted_abc double_quoted_abc = true →
        eq double_quoted_abc single_quoted_abc = true) ∧
      (eq single_quoted_abc double_quoted_abc = true →
        eq double_quoted_abc single_quoted_abc = true →
        eq single_quoted_abc single_quoted_abc = true) :=
  eq_equivalence single_quoted_abc double_quoted_abc single_quoted_abc
    (by decide) (by decide) (by decide)

end Token

/-! ## Properties of the comparison operators of `Node` -/

namespace Node

open Node_Type

theorem type_mk (t : Node_Type) (cs : List Node) (tok : Token) (v : value_t) (s b e : Bool)
    (p : String) (l : Nat) : (mk t cs tok v s b e p l).type = t := rfl

/-- On two `numeric_dimension` nodes `==` is the conjunction of span equality of the units and
of `==` on the numeric payloads. -/
theorem eq_numeric_dimension (a b : Node) (ha : a.type = numeric_dimension)
    (hb : b.type = numeric_dimension) :
    eq a b = (Token.eq a.unit b.unit && double.eq a.numeric_value b.numeric_value) := by
  cases a; cases b
  simp only [type_mk] at ha hb
  subst ha hb
  simp [eq]

/-- Two doubles that compare equal are not ordered by `<`. -/
theorem double_lt_of_eq (x y : double) (h : double.eq x y = true) : double.lt x y = false := by
  cases x <;> cases y <;> simp_all [double.eq, double.lt]

/-- C1. `a < b` has exactly three behaviours.  It returns, and then returns the comparison of
the numeric payloads, exactly when both nodes are `number`, or both `numeric_percentage`, or
both `numeric_dimension` with units equal under span equality; it throws the evaluation error
`incompatible units` (with the path and line of `a`) exactly when both are `numeric_dimension`
and the units are not equal; it throws the evaluation error `incomparable types` exactly for
every other pairing of tags. -/
theorem lt_contract (a b : Node) :
    (((a.type = number ∧ b.type = number) ∨
        (a.type = numeric_percentage ∧ b.type = numeric_percentage) ∨
        (a.type = numeric_dimension ∧ b.type = numeric_dimension ∧
          Token.eq a.unit b.unit = true)) ↔
      lt a b = .ok (double.lt a.numeric_value b.numeric_value)) ∧
    ((∃ r, lt a b = .ok r) ↔ lt a b = .ok (double.lt a.numeric_value b.numeric_value)) ∧
    ((a.type = numeric_dimension ∧ b.type = numeric_dimension ∧
        Token.eq a.unit b.unit = false) ↔
      lt a b = .error ⟨Error_Type.evaluation, a.path, a.line, "incompatible units"⟩) ∧
    ((¬ (a.type = number ∧ b.type = number) ∧
        ¬ (a.type = numeric_percentage ∧ b.type = numeric_percentage) ∧
        ¬ (a.type = numeric_dimension ∧ b.type = numeric_dimension)) ↔
      lt a b = .error ⟨Error_Type.evaluation, a.path, a.line, "incomparable types"⟩) := by
  have hne : ("incompatible units" : String) ≠ "incomparable types" := by decide
  by_cases h1 : (a.type = number ∧ b.type = number) ∨
      (a.type = numeric_percentage ∧ b.type = numeric_percentage)
  · have hl : lt a b = .ok (double.lt a.numeric_value b.numeric_value) := by
      simp only [lt, h1, if_true]
    have hd : ¬ (a.type = numeric_dimension ∧ b.type = numeric_dimension) := by
      rintro ⟨h2, h3⟩
      rcases h1 with ⟨h4, -⟩ | ⟨h4, -⟩ <;> simp [h2] at h4
    have hc : ¬ (¬ (a.type = number ∧ b.type = number) ∧
        ¬ (a.type = numeric_percentage ∧ b.type = numeric_percentage) ∧
        ¬ (a.type = numeric_dimension ∧ b.type = numeric_dimension)) := by
      rintro ⟨h5, h6, -⟩
      rcases h1 with h4 | h4
      · exact h5 h4
      · exact h6 h4
    refine ⟨⟨fun _ => hl, fun _ => ?_⟩, ⟨fun _ => hl, fun _ => ⟨_, hl⟩⟩, ⟨fun h => ?_, fun h => ?_⟩,
      ⟨fun h => absurd h hc, fun h => ?_⟩⟩
    · rcases h1 with h4 | h4
      · exact Or.inl h4
      · exact Or.inr (Or.inl h4)
    · exact absurd ⟨h.1, h.2.1⟩ hd
    · rw [hl] at h; cases h
    · rw [hl] at h; cases h
  · have h1a : ¬ (a.type = number ∧ b.type = number) := fun h => h1 (Or.inl h)
    have h1b : ¬ (a.type = numeric_percentage ∧ b.type = numeric_percentage) :=
      fun h => h1 (Or.inr h)
    by_cases h2 : a.type = numeric_dimension ∧ b.type = numeric_dimension
    · by_cases h3 : Token.eq a.unit b.unit = true
      · have hl : lt a b = .ok (double.lt a.numeric_value b.numeric_value) := by
          simp [lt, h2, h3]
        refine ⟨⟨fun _ => hl, fun _ => Or.inr (Or.inr ⟨h2.1, h2.2, h3⟩)⟩,
          ⟨fun _ => hl, fun _ => ⟨_, hl⟩⟩, ⟨fun h => ?_, fun h => ?_⟩,
          ⟨fun h => absurd h2 h.2.2, fun h => ?_⟩⟩
        · rw [h3] at h; exact absurd h.2.2 (by decide)
        · rw [hl] at h; cases h
        · rw [hl] at h; cases h
      · have h3f : Token.eq a.unit b.unit = false := by simpa using h3
        have hl : lt a b =
            .error ⟨Error_Type.evaluation, a.path, a.line, "incompatible units"⟩ := by
          simp [lt, h1, h2, h3f]
        refine ⟨⟨fun h => ?_, fun h => ?_⟩, ⟨fun h => ?_, fun h => ?_⟩,
          ⟨fun _ => hl, fun _ => ⟨h2.1, h2.2, h3f⟩⟩, ⟨fun h => absurd h2 h.2.2, fun h => ?_⟩⟩
        · rcases h with h | h | h
          · exact absurd h h1a
          · exact absurd h h1b
          · exact absurd h.2.2 h3
        · rw [hl] at h; cases h
        · obtain ⟨r, hr⟩ := h
          rw [hl] at hr; cases hr
        · rw [hl] at h; cases h
        · rw [hl] at h
          injection h with h
          injection h with _ _ _ h
          exact absurd h hne
    · have hl : lt a b =
          .error ⟨Error_Type.evaluation, a.path, a.line, "incomparable types"⟩ := by
        simp only [lt, h1, h2, if_false]
      refine ⟨⟨fun h => ?_, fun h => ?_⟩, ⟨fun h => ?_, fun h => ?_⟩,
        ⟨fun h => absurd ⟨h.1, h.2.1⟩ h2, fun h => ?_⟩, ⟨fun _ => hl, fun _ => ⟨h1a, h1b, h2⟩⟩⟩
      · rcases h with h | h | h
        · exact absurd h h1a
        · exact absurd h h1b
        · exact absurd ⟨h.1, h.2.1⟩ h2
      · rw [hl] at h; cases h
      · obtain ⟨r, hr⟩ := h
        rw [hl] at hr; cases hr
      · rw [hl] at h; cases h
      · rw [hl] at h
        injection h with h
        injection h with _ _ _ h
        exact absurd h.symm hne

/-- C2. The derived operators are derivations of `<` and `==`: when `a < b` throws, `a <= b`,
`a > b` and `a >= b` throw the same error; when `a < b` returns `r`, `a <= b` returns
`r || (a == b)`, `a > b` returns the negation of that, and `a >= b` returns `!r`. -/
theorem derived_operators (a b : Node) :
    match lt a b with
    | .error e => le a b = .error e ∧ gt a b = .error e ∧ ge a b = .error e
    | .ok r =>
      le a b = .ok (r || eq a b) ∧ gt a b = .ok (!(r || eq a b)) ∧ ge a b = .ok (!r) := by
  cases h : lt a b with
  | error e => simp [le, gt, ge, h]
  | ok r => cases r <;> simp [le, gt, ge, h]

/-- C5. Two nodes whose tags differ are not equal: `a == b` is false and `a != b` is true. -/
theorem eq_false_of_type_ne (a b : Node) (h : a.type ≠ b.type) :
    eq a b = false ∧ ne a b = true := by
  cases a; cases b
  simp only [type_mk] at h
  simp [eq, ne, h]

/-- Instance of C5: a `number` node against a `numeric_dimension` node. -/
theorem eq_false_of_type_ne_witness :
    (number_node (double.finite 5)).type ≠ (dimension_node 5 [112, 120]).type ∧
      eq (number_node (double.finite 5)) (dimension_node 5 [112, 120]) = false ∧
      ne (number_node (double.finite 5)) (dimension_node 5 [112, 120]) = true :=
  ⟨by decide, eq_false_of_type_ne _ _ (by decide)⟩

/-- C6. For two `numeric_dimension` nodes whose units are equal as spans and whose numeric
payloads compare equal as doubles, `a == b` is true, `a < b` returns false without throwing,
and `a <= b` returns true. -/
theorem dimension_equal_payload (a b : Node) (ha : a.type = numeric_dimension)
    (hb : b.type = numeric_dimension) (hu : Token.eq a.unit b.unit = true)
    (hv : double.eq a.numeric_value b.numeric_value = true) :
    eq a b = true ∧ lt a b = .ok false ∧ le a b = .ok true := by
  have he : eq a b = true := by rw [eq_numeric_dimension a b ha hb, hu, hv]; rfl
  have hl : lt a b = .ok false := by
    simp [lt, ha, hb, hu, double_lt_of_eq _ _ hv]
  exact ⟨he, hl, by simp [le, hl, he]⟩

/-- Instance of C6: `5px` against `5px`. -/
theorem dimension_equal_payload_witness :
    eq (dimension_node 5 [112, 120]) (dimension_node 5 [112, 120]) = true ∧
      lt (dimension_node 5 [112, 120]) (dimension_node 5 [112, 120]) = .ok false ∧
      le (dimension_node 5 [112, 120]) (dimension_node 5 [112, 120]) = .ok true :=
  dimension_equal_payload _ _ rfl rfl (by decide) (by decide)

/-- C7. Two `numeric_dimension` nodes are equal exactly when their units are equal as spans
and their numeric payloads compare equal; when the units differ `a == b` is false, whatever
the payloads (`==` returns a boolean and never throws). -/
theorem dimension_eq_iff (a b : Node) (ha : a.type = numeric_dimension)
    (hb : b.type = numeric_dimension) :
    (eq a b = true ↔
      Token.eq a.unit b.unit = true ∧ double.eq a.numeric_value b.numeric_value = true) ∧
    (Token.eq a.unit b.unit = false → eq a b = false) := by
  rw [eq_numeric_dimension a b ha hb]
  constructor
  · simp
  · intro h
    simp [h]

/-- Instance of C7: `5px` against `5em` have equal payloads and different units, and are not
equal. -/
theorem dimension_eq_iff_witness :
    double.eq (dimension_node 5 [112, 120]).numeric_value
        (dimension_node 5 [101, 109]).numeric_value = true ∧
      Token.eq (dimension_node 5 [112, 120]).unit (dimension_node 5 [101, 109]).unit = false ∧
      eq (dimension_node 5 [112, 120]) (dimension_node 5 [101, 109]) = false :=
  ⟨by decide, by decide,
    (dimension_eq_iff (dimension_node 5 [112, 120]) (dimension_node 5 [101, 109]) rfl rfl).2
      (by decide)⟩

theorem eq_children_cons (a b : Node) (as bs : List Node) :
    eq_children (a :: as) (b :: bs) = (eq a b && eq_children as bs) := by
  rw [eq_children]
  cases eq a b <;> simp

theorem eq_children_nil_left (bs : List Node) : eq_children [] bs = true := by
  simp [eq_children]

theorem eq_children_nil_right (as : List Node) : eq_children as [] = true := by
  cases as <;> simp [eq_children]

/-- What `Node::operator==` computes, in terms of the accessors. -/
theorem eq_unfold (a b : Node) :
    eq a b =
      if a.type ≠ b.type then false
      else
        match a.type with
        | comma_list | space_list | expression | term | numeric_color =>
          if a.children.length ≠ b.children.length then false
          else eq_children a.children b.children
        | variable_ | identifier | uri | textual_percentage | textual_dimension
        | textual_number | textual_hex | string_constant =>
          decide (a.token.unquote = b.token.unquote)
        | number | numeric_percentage => double.eq a.numeric_value b.numeric_value
        | numeric_dimension =>
          if Token.eq a.unit b.unit then double.eq a.numeric_value b.numeric_value else false
        | boolean => decide (a.value.boolean = b.value.boolean)
        | simple_selector | selector_combinator | pseudo => Token.eq a.token b.token
        | simple_selector_sequence =>
          if a.children.length ≠ b.children.length then false
          else eq_children a.children b.children
        | _ => true := by
  cases a; cases b
  simp only [eq, type, children, token, value]

/-- On the tags compared child by child, `==` is the equality of the sizes followed by the
loop over the children. -/
theorem eq_of_list_tag (a b : Node) (ht : a.type = b.type)
    (hl : a.type = comma_list ∨ a.type = space_list ∨ a.type = expression ∨ a.type = term ∨
      a.type = numeric_color ∨ a.type = simple_selector_sequence) :
    eq a b = (decide (a.children.length = b.children.length) &&
      eq_children a.children b.children) := by
  rw [eq_unfold, if_neg (by simp [ht])]
  by_cases hs : a.children.length = b.children.length
  · rcases hl with h | h | h | h | h | h <;> simp [h, hs]
  · rcases hl with h | h | h | h | h | h <;> simp [h, hs]

/-- On two child vectors of the same size the loop of `==` returns true exactly when the
children are equal index by index. -/
theorem eq_children_iff : ∀ (as bs : List Node), as.length = bs.length →
    (eq_children as bs = true ↔
      ∀ (i : Nat) (h1 : i < as.length) (h2 : i < bs.length), eq as[i] bs[i] = true) := by
  intro as
  induction as with
  | nil =>
    intro bs _
    simp [eq_children_nil_left]
  | cons a as ih =>
    intro bs hl
    cases bs with
    | nil => simp at hl
    | cons b bs =>
      simp only [List.length_cons, Nat.add_right_cancel_iff] at hl
      rw [eq_children_cons, Bool.and_eq_true, ih bs hl]
      constructor
      · rintro ⟨h0, hr⟩ i h1 h2
        cases i with
        | zero => simpa using h0
        | succ i =>
          simp only [List.getElem_cons_succ]
          exact hr i (by simpa using h1) (by simpa using h2)
      · intro h
        refine ⟨by simpa using h 0 (by simp) (by simp), fun i h1 h2 => ?_⟩
        have := h (i + 1) (by simpa using h1) (by simpa using h2)
        simpa using this

/-- C14. Two nodes of the same tag among `comma_list`, `space_list`, `expression`, `term`,
`numeric_color` and `simple_selector_sequence` are equal exactly when they have the same number
of children and the children are equal index by index; the comparison follows the order of the
children, so a node of children `[x, y]` is not equal to a node of children `[y, x]` when `x`
and `y` are not equal. -/
theorem eq_list_iff (a b : Node) (ht : a.type = b.type)
    (hl : a.type = comma_list ∨ a.type = space_list ∨ a.type = expression ∨ a.type = term ∨
      a.type = numeric_color ∨ a.type = simple_selector_sequence) :
    (eq a b = true ↔
      a.size = b.size ∧
        ∀ (i : Nat) (h1 : i < a.children.length) (h2 : i < b.children.length),
          eq a.children[i] b.children[i] = true) ∧
    (∀ x y : Node, a.children = [x, y] → b.children = [y, x] → eq x y = false →
      eq a b = false) := by
  rw [eq_of_list_tag a b ht hl]
  constructor
  · simp only [size, Bool.and_eq_true, decide_eq_true_eq]
    constructor
    · rintro ⟨h1, h2⟩
      exact ⟨h1, (eq_children_iff _ _ h1).mp h2⟩
    · rintro ⟨h1, h2⟩
      exact ⟨h1, (eq_children_iff _ _ h1).mpr h2⟩
  · intro x y hx hy hxy
    rw [hx, hy, eq_children_cons, hxy]
    simp

/-- Instance of C14: the simple selectors `.a` and `.b` are not equal, and the sequences
`[.a, .b]` and `[.b, .a]` are not equal. -/
theorem eq_list_iff_witness :
    eq (selector_node [46, 97]) (selector_node [46, 98]) = false ∧
      eq (sequence_node [selector_node [46, 97], selector_node [46, 98]])
        (sequence_node [selector_node [46, 98], selector_node [46, 97]]) = false :=
  ⟨by decide,
    (eq_list_iff (sequence_node [selector_node [46, 97], selector_node [46, 98]])
      (sequence_node [selector_node [46, 98], selector_node [46, 97]]) rfl
      (Or.inr (Or.inr (Or.inr (Or.inr (Or.inr rfl)))))).2 _ _ rfl rfl (by decide)⟩

end Node

/-! ## Properties of `flatten` -/

namespace Node

open Node_Type

theorem leaves_list_cons (c : Node) (cs : List Node) :
    leaves_list (c :: cs) =
      (if c.type = expansion then leaves_list c.children else [c]) ++ leaves_list cs := by
  cases c
  simp [leaves_list, leaves, type, children]

theorem expansions_list_cons (c : Node) (cs : List Node) :
    expansions_list (c :: cs) =
      (if c.type = expansion then c :: expansions_list c.children else []) ++
        expansions_list cs := by
  cases c
  simp [expansions_list, expansions, type, children]

theorem nodes_list_cons (c : Node) (cs : List Node) :
    nodes_list (c :: cs) = 1 + nodes_list c.children + nodes_list cs := by
  cases c
  simp [nodes_list, nodes, children]

theorem nodes_eq (c : Node) : nodes c = 1 + nodes_list c.children := by
  cases c
  simp [nodes, children]

theorem leaves_list_append (xs ys : List Node) :
    leaves_list (xs ++ ys) = leaves_list xs ++ leaves_list ys := by
  induction xs with
  | nil => simp [leaves_list]
  | cons c xs ih => simp [leaves_list_cons, ih]

theorem expansions_list_append (xs ys : List Node) :
    expansions_list (xs ++ ys) = expansions_list xs ++ expansions_list ys := by
  induction xs with
  | nil => simp [expansions_list]
  | cons c xs ih => simp [expansions_list_cons, ih]

theorem nodes_list_append (xs ys : List Node) :
    nodes_list (xs ++ ys) = nodes_list xs + nodes_list ys := by
  induction xs with
  | nil => simp [nodes_list]
  | cons c xs ih => simp only [List.cons_append, nodes_list_cons, ih]; omega

theorem length_le_nodes_list (cs : List Node) : cs.length ≤ nodes_list cs := by
  induction cs with
  | nil => simp
  | cons c cs ih => simp only [List.length_cons, nodes_list_cons]; omega

/-- A child vector without expansion is its own inlined leaf sequence and reaches no
expansion. -/
theorem leaves_list_of_no_expansion (cs : List Node) (h : ∀ x ∈ cs, x.type ≠ expansion) :
    leaves_list cs = cs ∧ expansions_list cs = [] := by
  induction cs with
  | nil => simp [leaves_list, expansions_list]
  | cons c cs ih =>
    have hc : c.type ≠ expansion := h c (by simp)
    have := ih (fun x hx => h x (by simp [hx]))
    simp [leaves_list_cons, expansions_list_cons, hc, this]

/-- No node of an inlined leaf sequence is an expansion, and the sequence has no more stores
than the vector it comes from. -/
theorem leaves_list_spec : ∀ (k : Nat) (cs : List Node), nodes_list cs ≤ k →
    (∀ x ∈ leaves_list cs, x.type ≠ expansion) ∧ nodes_list (leaves_list cs) ≤ nodes_list cs := by
  intro k
  induction k with
  | zero =>
    intro cs h
    cases cs with
    | nil => simp [leaves_list, nodes_list]
    | cons c cs => rw [nodes_list_cons] at h; omega
  | succ k ih =>
    intro cs h
    cases cs with
    | nil => simp [leaves_list, nodes_list]
    | cons c cs =>
      rw [nodes_list_cons] at h
      have h1 := ih cs (by omega)
      have h2 := ih c.children (by omega)
      rw [leaves_list_cons, nodes_list_append, nodes_list_cons]
      by_cases hc : c.type = expansion
      · simp only [hc, if_true]
        refine ⟨fun x hx => ?_, by omega⟩
        rcases List.mem_append.mp hx with hx | hx
        · exact h2.1 x hx
        · exact h1.1 x hx
      · simp only [hc, if_false]
        refine ⟨fun x hx => ?_, ?_⟩
        · rcases List.mem_append.mp hx with hx | hx
          · simp only [List.mem_singleton] at hx
            rw [hx]; exact hc
          · exact h1.1 x hx
        · rw [nodes_list_cons]
          simp only [nodes_list]
          omega

theorem regular_iff (x : Node) : regular x = true ↔
    x.children ≠ [] ∧ ((∃ c ∈ x.children, c.type = expansion) → x.has_expansions = true) := by
  cases h : x.children with
  | nil => simp [regular, h]
  | cons c cs =>
    by_cases hH : x.has_expansions = true
    · simp [regular, h, hH]
    · simp [regular, h, hH]

/-- Under regularity a non-empty child vector has a non-empty inlined leaf sequence. -/
theorem leaves_list_ne_nil : ∀ (k : Nat) (cs : List Node), nodes_list cs ≤ k →
    (∀ x ∈ expansions_list cs, regular x = true) → cs ≠ [] → leaves_list cs ≠ [] := by
  intro k
  induction k with
  | zero =>
    intro cs h _ hne
    cases cs with
    | nil => exact absurd rfl hne
    | cons c cs => rw [nodes_list_cons] at h; omega
  | succ k ih =>
    intro cs h hr hne
    cases cs with
    | nil => exact absurd rfl hne
    | cons c cs =>
      rw [nodes_list_cons] at h
      rw [leaves_list_cons]
      rw [expansions_list_cons] at hr
      by_cases hc : c.type = expansion
      · simp only [hc, if_true] at hr ⊢
        have hreg : regular c = true := hr c (by simp)
        have h2 := ih c.children (by omega) (fun x hx => hr x (by simp [hx]))
          ((regular_iff c).mp hreg).1
        simp [h2]
      · simp [hc]

theorem get?_length_append (done : List Node) (c : Node) (rest : List Node) :
    (done ++ c :: rest).get? done.length = some c := by
  rw [List.get?_eq_getElem?, List.getElem?_append_right (Nat.le_refl _)]
  simp

/-- End of the loop of `flatten`: the index has reached the size. -/
theorem flatten_loop_end (f : Node → Option Node) (k : Nat) (t : Node_Type) (done : List Node)
    (tok : Token) (v : value_t) (s b e : Bool) (p : String) (l : Nat) :
    flatten_loop f (k + 1) (mk t done tok v s b e p l) done.length =
      some (mk t done tok v s b e p l) := by
  simp [flatten_loop, size, children]

/-- One iteration of the loop of `flatten` on a child that is not an expansion. -/
theorem flatten_loop_step_other (f : Node → Option Node) (k : Nat) (t : Node_Type)
    (done : List Node) (c : Node) (rest : List Node) (tok : Token) (v : value_t) (s b e : Bool)
    (p : String) (l : Nat) (hc : c.type ≠ expansion) :
    flatten_loop f (k + 1) (mk t (done ++ c :: rest) tok v s b e p l) done.length =
      flatten_loop f k (mk t ((done ++ [c]) ++ rest) tok v s b e p l) (done ++ [c]).length := by
  simp only [flatten_loop, size, children, List.length_append, List.length_cons]
  rw [if_pos (by omega)]
  simp only [get?_length_append, hc, if_false]
  simp

/-- One iteration of the loop of `flatten` on an expansion child: the child, flattened when its
flag `has_expansions` is set, gives its flags and its children to the parent, and the loop
goes on at the next index. -/
theorem flatten_loop_step_expansion (f : Node → Option Node) (k : Nat) (t : Node_Type)
    (done : List Node) (c : Node) (rest : List Node) (tok : Token) (v : value_t) (s b e : Bool)
    (p : String) (l : Nat) (hc : c.type = expansion) (expn : Node)
    (h : (if c.has_expansions then f c else some c) = some expn) :
    flatten_loop f (k + 1) (mk t (done ++ c :: rest) tok v s b e p l) done.length =
      flatten_loop f k
        (mk t (done ++ (expn.children ++ rest)) tok v (s || expn.has_statements)
          (b || expn.has_blocks) (e || expn.has_expansions) p l) (done.length + 1) := by
  simp only [flatten_loop, size, children, List.length_append, List.length_cons]
  rw [if_pos (by omega)]
  simp only [get?_length_append, hc, if_true, h, or_flags, set_children, children]
  have e1 : (done ++ c :: rest).eraseIdx done.length = done ++ rest := by
    rw [List.eraseIdx_append_of_length_le (Nat.le_refl _)]
    simp
  rw [e1]
  simp

theorem inlined_of_no_expansion (c : Node) (h : ∀ x ∈ c.children, x.type ≠ expansion) :
    inlined c = c := by
  cases c
  simp only [children] at h
  simp [inlined, leaves_list_of_no_expansion _ h]

/-- The recursive step of `flatten` on a regular expansion child, given that `flatten` with
the fuel at hand inlines such a child: the node spliced is the child with its expansions
inlined, whether or not its flag `has_expansions` makes the recursive call happen. -/
theorem flatten_child_regular (fuel : Nat) (c : Node)
    (ih : flatten fuel c = some (inlined c)) (hreg : regular c = true) :
    (if c.has_expansions then flatten fuel c else some c) = some (inlined c) := by
  by_cases he : c.has_expansions = true
  · simp [he, ih]
  · have h2 := ((regular_iff c).mp hreg).2
    have h3 : ∀ x ∈ c.children, x.type ≠ expansion := fun x hx hxe => he (h2 ⟨x, hx, hxe⟩)
    simp [he, inlined_of_no_expansion c h3]

theorem flatten_loop_regular (fuel : Nat)
    (ih : ∀ c : Node, nodes c ≤ fuel → c.type = expansion →
      (∀ x ∈ expansions_list c.children, regular x = true) → flatten fuel c = some (inlined c)) :
    ∀ (k : Nat) (rest done : List Node) (t : Node_Type) (tok : Token) (v : value_t)
      (s b e : Bool) (p : String) (l : Nat),
      nodes_list rest < k → nodes_list rest ≤ fuel →
      (∀ x ∈ expansions_list rest, regular x = true) →
      flatten_loop (flatten fuel) k (mk t (done ++ rest) tok v s b e p l) done.length =
        some (mk t (done ++ leaves_list rest) tok v
          (s || (expansions_list rest).any has_statements)
          (b || (expansions_list rest).any has_blocks)
          (e || (expansions_list rest).any has_expansions) p l) := by
  intro k
  induction k with
  | zero => intro rest done t tok v s b e p l h; omega
  | succ k ihk =>
    intro rest done t tok v s b e p l hk hf hr
    cases rest with
    | nil =>
      simp only [List.append_nil, leaves_list, expansions_list, List.any_nil, Bool.or_false]
      exact flatten_loop_end _ k t done tok v s b e p l
    | cons c rest =>
      rw [nodes_list_cons] at hk hf
      rw [expansions_list_cons] at hr
      by_cases hc : c.type = expansion
      · simp only [hc, if_true] at hr
        have hreg : regular c = true := hr c (by simp)
        have hrc : ∀ x ∈ expansions_list c.children, regular x = true :=
          fun x hx => hr x (by simp [hx])
        have hrr : ∀ x ∈ expansions_list rest, regular x = true :=
          fun x hx => hr x (by simp [hx])
        have hexp := flatten_child_regular fuel c
          (ih c (by rw [nodes_eq]; omega) hc hrc) hreg
        rw [flatten_loop_step_expansion _ k t done c rest tok v s b e p l hc _ hexp]
        have hch : (inlined c).children = leaves_list c.children := by
          cases c; simp [inlined, children]
        have hs : (inlined c).has_statements =
            (c.has_statements || (expansions_list c.children).any has_statements) := by
          cases c; simp [inlined, children, has_statements]
        have hb : (inlined c).has_blocks =
            (c.has_blocks || (expansions_list c.children).any has_blocks) := by
          cases c; simp [inlined, children, has_blocks]
        have he : (inlined c).has_expansions =
            (c.has_expansions || (expansions_list c.children).any has_expansions) := by
          cases c; simp [inlined, children, has_expansions]
        have hsp := leaves_list_spec _ c.children (Nat.le_refl _)
        have hne := leaves_list_ne_nil _ c.children (Nat.le_refl _) hrc
          ((regular_iff c).mp hreg).1
        rw [hch, hs, hb, he]
        cases hL : leaves_list c.children with
        | nil => exact absurd hL hne
        | cons x L =>
          rw [hL] at hsp
          have hxL : ∀ y ∈ L, y.type ≠ expansion := fun y hy => hsp.1 y (by simp [hy])
          have hLl := leaves_list_of_no_expansion L hxL
          have hsz := hsp.2
          rw [nodes_list_cons] at hsz
          have hstep := ihk (L ++ rest) (done ++ [x]) t tok v
            (s || (c.has_statements || (expansions_list c.children).any has_statements))
            (b || (c.has_blocks || (expansions_list c.children).any has_blocks))
            (e || (c.has_expansions || (expansions_list c.children).any has_expansions)) p l
            (by rw [nodes_list_append]; omega) (by rw [nodes_list_append]; omega)
            (by
              intro y hy
              rw [expansions_list_append, hLl.2] at hy
              exact hrr y (by simpa using hy))
          have e1 : done ++ (x :: L ++ rest) = (done ++ [x]) ++ (L ++ rest) := by simp
          have e2 : done.length + 1 = (done ++ [x]).length := by simp
          rw [e1, e2, hstep, leaves_list_append, expansions_list_append, hLl.1, hLl.2,
            leaves_list_cons, expansions_list_cons]
          simp [hc, hL, Bool.or_assoc]
      · simp only [hc, if_false, List.nil_append] at hr
        rw [flatten_loop_step_other _ k t done c rest tok v s b e p l hc]
        rw [ihk rest (done ++ [c]) t tok v s b e p l (by omega) (by omega) hr]
        simp [leaves_list_cons, expansions_list_cons, hc]

/-- On a block, an expansion or a root whose reachable expansions are regular, `flatten` with
fuel at least the number of stores returns the node with its expansions inlined. -/
theorem flatten_regular : ∀ (fuel : Nat) (n : Node), nodes n ≤ fuel →
    (n.type = block ∨ n.type = expansion ∨ n.type = root) →
    (∀ x ∈ expansions_list n.children, regular x = true) →
    flatten fuel n = some (inlined n) := by
  intro fuel
  induction fuel with
  | zero => intro n h; rw [nodes_eq] at h; omega
  | succ fuel ih =>
    intro n hn ht hr
    have hloop := flatten_loop_regular fuel
      (fun c h1 h2 h3 => ih c h1 (Or.inr (Or.inl h2)) h3)
    cases n with
    | mk t cs tok v s b e p l =>
      simp only [type_mk] at ht
      simp only [children] at hr
      simp only [nodes_eq, children] at hn
      have hg : ¬ (t ≠ block ∧ t ≠ expansion ∧ t ≠ root) := by
        rintro ⟨h1, h2, h3⟩
        rcases ht with h | h | h
        · exact h1 h
        · exact h2 h
        · exact h3 h
      have := hloop (fuel + 1) cs [] t tok v s b e p l (by omega) (by omega) hr
      simp only [flatten, type_mk, if_neg hg]
      simpa [inlined] using this

theorem inlined_children (n : Node) : (inlined n).children = leaves_list n.children := by
  cases n; simp [inlined, children]

theorem inlined_type (n : Node) : (inlined n).type = n.type := by
  cases n; simp [inlined, type]

theorem nodes_inlined_le (n : Node) : nodes (inlined n) ≤ nodes n := by
  have := (leaves_list_spec _ n.children (Nat.le_refl _)).2
  rw [nodes_eq, nodes_eq n, inlined_children]
  omega

theorem inlined_inlined (n : Node) : inlined (inlined n) = inlined n := by
  apply inlined_of_no_expansion
  rw [inlined_children]
  exact (leaves_list_spec _ n.children (Nat.le_refl _)).1

/-- Outside the tags `block`, `expansion` and `root`, `flatten` returns the node unchanged. -/
theorem flatten_other (fuel : Nat) (n : Node)
    (ht : ¬ (n.type = block ∨ n.type = expansion ∨ n.type = root)) :
    flatten (fuel + 1) n = some n := by
  have hg : n.type ≠ block ∧ n.type ≠ expansion ∧ n.type ≠ root :=
    ⟨fun h => ht (Or.inl h), fun h => ht (Or.inr (Or.inl h)), fun h => ht (Or.inr (Or.inr h))⟩
  simp only [flatten, if_pos hg]

/-- The inlined leaf sequence of a child vector replaces each expansion child by the children
of its flattened store, when the reachable expansions are regular and the fuel covers the
vector. -/
theorem leaves_list_eq_flatMap (fuel : Nat) : ∀ cs : List Node, nodes_list cs ≤ fuel →
    (∀ x ∈ expansions_list cs, regular x = true) →
    leaves_list cs = cs.flatMap (fun c =>
      if c.type = expansion then
        match flatten fuel c with
        | some expn => expn.children
        | none => []
      else [c]) := by
  intro cs
  induction cs with
  | nil => intro _ _; simp [leaves_list]
  | cons c cs ih =>
    intro hf hr
    rw [nodes_list_cons] at hf
    rw [expansions_list_cons] at hr
    rw [leaves_list_cons, List.flatMap_cons,
      ih (by omega) (fun x hx => hr x (by simp [hx]))]
    by_cases hc : c.type = expansion
    · simp only [hc, if_true] at hr ⊢
      rw [flatten_regular fuel c (by rw [nodes_eq]; omega) (Or.inr (Or.inl hc))
        (fun x hx => hr x (by simp [hx]))]
      simp only [inlined_children]
    · simp only [hc, if_false]

/-- C3, amended.  For a block, an expansion or a root whose reachable expansions are regular
(each has a child, and has its flag `has_expansions` set when one of its children is an
expansion), `flatten` with fuel at least the number of stores returns a node whose child
sequence is the original one with every expansion child replaced, at its position and in
order, by the children of that child flattened; no child of the result is an expansion. -/
theorem flatten_children (fuel : Nat) (n : Node) (hf : nodes n ≤ fuel)
    (ht : n.type = block ∨ n.type = expansion ∨ n.type = root)
    (hr : ∀ x ∈ expansions_list n.children, regular x = true) :
    ∃ r, flatten fuel n = some r ∧
      r.children = n.children.flatMap (fun c =>
        if c.type = expansion then
          match flatten fuel c with
          | some expn => expn.children
          | none => []
        else [c]) ∧
      ∀ x ∈ r.children, x.type ≠ expansion := by
  refine ⟨inlined n, flatten_regular fuel n hf ht hr, ?_, ?_⟩
  · rw [inlined_children]
    exact leaves_list_eq_flatMap fuel n.children (by rw [nodes_eq] at hf; omega) hr
  · rw [inlined_children]
    exact (leaves_list_spec _ n.children (Nat.le_refl _)).1

/-- Instance of C3, amended: the root `[A, expansion(B, expansion(C)), D]` is flattened to a
root of children `[A, B, C, D]`. -/
theorem flatten_children_witness :
    (flatten 7 nested_root).map children = some [leaf 65, leaf 66, leaf 67, leaf 68] ∧
    ∃ r, flatten 7 nested_root = some r ∧
      r.children = nested_root.children.flatMap (fun c =>
        if c.type = expansion then
          match flatten 7 c with
          | some expn => expn.children
          | none => []
        else [c]) ∧
      ∀ x ∈ r.children, x.type ≠ expansion :=
  ⟨rfl, flatten_children 7 nested_root (by decide) (Or.inr (Or.inr rfl)) (by decide)⟩

/-- C3, counterexample.  In the root `[expansion(expansion(C), B)]` the outer expansion has its
flag `has_expansions` unset, so it is spliced without being flattened: the result has the
children `[expansion(C), B]`, the first of which is an expansion, whereas the children of the
outer expansion flattened are `[C, B]`. -/
theorem flatten_keeps_expansion_child :
    flatten 5 unflagged_root =
        some (container root [container expansion [leaf 67] false, leaf 66] true) ∧
      flatten 5 (container expansion [container expansion [leaf 67] false, leaf 66] false) =
        some (container expansion [leaf 67, leaf 66] false) ∧
      (container expansion [leaf 67] false).type = expansion :=
  ⟨rfl, rfl, rfl⟩

/-- C4, amended.  On a node whose reachable expansions are regular, `flatten` with fuel at least
the number of stores returns a node on which `flatten` returns the same node: a second
`flatten` changes neither the children nor the flags. -/
theorem flatten_idempotent (fuel : Nat) (n : Node) (hf : nodes n ≤ fuel)
    (hr : ∀ x ∈ expansions_list n.children, regular x = true) :
    ∃ r, flatten fuel n = some r ∧ flatten fuel r = some r := by
  by_cases ht : n.type = block ∨ n.type = expansion ∨ n.type = root
  · refine ⟨inlined n, flatten_regular fuel n hf ht hr, ?_⟩
    have h2 := flatten_regular fuel (inlined n) (Nat.le_trans (nodes_inlined_le n) hf)
      (by rw [inlined_type]; exact ht)
      (by
        rw [inlined_children,
          (leaves_list_of_no_expansion _ (leaves_list_spec _ n.children (Nat.le_refl _)).1).2]
        intro x hx
        cases hx)
    rw [h2, inlined_inlined]
  · cases fuel with
    | zero => rw [nodes_eq] at hf; omega
    | succ fuel => exact ⟨n, flatten_other fuel n ht, flatten_other fuel n ht⟩

/-- Instance of C4, amended, on the root `[A, expansion(B, expansion(C)), D]`. -/
theorem flatten_idempotent_witness :
    ∃ r, flatten 7 nested_root = some r ∧ flatten 7 r = some r :=
  flatten_idempotent 7 nested_root (by decide) (by decide)

/-- C4, counterexample.  The root `[expansion(expansion(C), B)]`, whose outer expansion has its
flag `has_expansions` unset, is flattened to `[expansion(C), B]`, and a second `flatten` turns
that result into `[C, B]`: the second call changes the child sequence. -/
theorem flatten_twice_differs :
    flatten 5 unflagged_root =
        some (container root [container expansion [leaf 67] false, leaf 66] true) ∧
      flatten 5 (container root [container expansion [leaf 67] false, leaf 66] true) =
        some (container root [leaf 67, leaf 66] true) ∧
      (container root [container expansion [leaf 67] false, leaf 66] true).size = 2 ∧
      ((container root [container expansion [leaf 67] false, leaf 66] true).children.map type ≠
        (container root [leaf 67, leaf 66] true).children.map type) :=
  ⟨rfl, rfl, rfl, by decide⟩

/-- After an expansion without child has been erased, the loop of `flatten` moves to the next
index and does not visit the child that took the place of the erased one: the root
`[expansion(), expansion(B)]` is flattened to `[expansion(B)]`, and a second `flatten` gives
`[B]`. -/
theorem flatten_after_empty_expansion :
    flatten 4 empty_expansion_root = some (container root [container expansion [leaf 66] false] true) ∧
      flatten 4 (container root [container expansion [leaf 66] false] true) =
        some (container root [leaf 66] true) :=
  ⟨rfl, rfl⟩

/-- The loop of `flatten` keeps its result when the counter grows and the recursive call
returns at least as often. -/
theorem flatten_loop_mono (f g : Node → Option Node)
    (hfg : ∀ c r, f c = some r → g c = some r) :
    ∀ (k k' : Nat) (self : Node) (i : Nat) (r : Node), k ≤ k' →
      flatten_loop f k self i = some r → flatten_loop g k' self i = some r := by
  intro k
  induction k with
  | zero => intro k' self i r _ h; simp [flatten_loop] at h
  | succ k ih =>
    intro k' self i r hk h
    cases k' with
    | zero => omega
    | succ k' =>
      simp only [flatten_loop, List.get?_eq_getElem?] at h ⊢
      by_cases hi : i < self.size
      · simp only [hi, if_true] at h ⊢
        cases hget : self.children[i]? with
        | none => simp [hget] at h
        | some at_i =>
          simp only [hget] at h ⊢
          by_cases ht : at_i.type = expansion
          · simp only [ht, if_true] at h ⊢
            by_cases he : at_i.has_expansions = true
            · simp only [he, if_true] at h ⊢
              cases hf : f at_i with
              | none => simp [hf] at h
              | some expn =>
                simp only [hf] at h
                simp only [hfg _ _ hf]
                exact ih k' _ _ r (by omega) h
            · simp only [he] at h ⊢
              exact ih k' _ _ r (by omega) h
          · simp only [ht, if_false] at h ⊢
            exact ih k' _ _ r (by omega) h
      · simp only [hi, if_false] at h ⊢
        exact h

/-- A result of `flatten` does not depend on the fuel: more fuel gives the same result. -/
theorem flatten_mono : ∀ (fuel fuel' : Nat) (n r : Node), fuel ≤ fuel' →
    flatten fuel n = some r → flatten fuel' n = some r := by
  intro fuel
  induction fuel with
  | zero => intro fuel' n r _ h; simp [flatten] at h
  | succ fuel ih =>
    intro fuel' n r hf h
    cases fuel' with
    | zero => omega
    | succ fuel' =>
      simp only [flatten] at h ⊢
      by_cases hg : n.type ≠ block ∧ n.type ≠ expansion ∧ n.type ≠ root
      · rw [if_pos hg] at h ⊢
        exact h
      · rw [if_neg hg] at h ⊢
        exact flatten_loop_mono _ _ (fun c r' hc => ih fuel' c r' (by omega) hc)
          (fuel + 1) (fuel' + 1) n 0 r (by omega) h

/-! ### Equality of nodes as an equivalence relation -/

theorem nodes_le_of_mem (cs : List Node) (c : Node) (h : c ∈ cs) : nodes c ≤ nodes_list cs := by
  induction cs with
  | nil => cases h
  | cons x cs ih =>
    rw [nodes_list_cons]
    rcases List.mem_cons.mp h with h | h
    · rw [h, nodes_eq]; omega
    · have := ih h; omega

theorem no_nan_eq (a : Node) :
    no_nan a = (decide (a.numeric_value ≠ double.nan) && no_nan_list a.children) := by
  cases a
  simp only [no_nan, children]

theorem no_nan_of_mem (cs : List Node) (c : Node) (h : no_nan_list cs = true) (hc : c ∈ cs) :
    no_nan c = true := by
  induction cs with
  | nil => cases hc
  | cons x cs ih =>
    simp only [no_nan_list, Bool.and_eq_true] at h
    rcases List.mem_cons.mp hc with hc | hc
    · rw [hc]; exact h.1
    · exact ih h.2 hc

theorem double_eq_refl (x : double) (h : x ≠ double.nan) : double.eq x x = true := by
  cases x <;> simp_all [double.eq]

theorem double_eq_symm (x y : double) (h : double.eq x y = true) : double.eq y x = true := by
  cases x <;> cases y <;> simp_all [double.eq]

theorem double_eq_trans (x y z : double) (h1 : double.eq x y = true)
    (h2 : double.eq y z = true) : double.eq x z = true := by
  cases x <;> cases y <;> cases z <;> simp_all [double.eq]

theorem eq_children_refl (cs : List Node) (h : ∀ c ∈ cs, eq c c = true) :
    eq_children cs cs = true := by
  induction cs with
  | nil => exact eq_children_nil_left []
  | cons c cs ih =>
    rw [eq_children_cons, h c (by simp), ih (fun x hx => h x (by simp [hx]))]
    rfl

theorem eq_children_symm : ∀ (as bs : List Node),
    (∀ a ∈ as, ∀ b, eq a b = true → eq b a = true) →
    eq_children as bs = true → eq_children bs as = true := by
  intro as
  induction as with
  | nil => intro bs _ _; exact eq_children_nil_right bs
  | cons a as ih =>
    intro bs h he
    cases bs with
    | nil => exact eq_children_nil_left _
    | cons b bs =>
      rw [eq_children_cons, Bool.and_eq_true] at he
      rw [eq_children_cons, h a (by simp) b he.1,
        ih bs (fun x hx => h x (by simp [hx])) he.2]
      rfl

theorem eq_children_trans : ∀ (as bs cs : List Node),
    (∀ a ∈ as, ∀ b c, eq a b = true → eq b c = true → eq a c = true) →
    as.length = bs.length →
    eq_children as bs = true → eq_children bs cs = true → eq_children as cs = true := by
  intro as
  induction as with
  | nil => intro bs cs _ _ _ _; exact eq_children_nil_left cs
  | cons a as ih =>
    intro bs cs h hl h1 h2
    cases bs with
    | nil => simp at hl
    | cons b bs =>
      cases cs with
      | nil => exact eq_children_nil_right _
      | cons c cs =>
        simp only [List.length_cons, Nat.add_right_cancel_iff] at hl
        rw [eq_children_cons, Bool.and_eq_true] at h1 h2
        rw [eq_children_cons, h a (by simp) b c h1.1 h2.1,
          ih bs cs (fun x hx => h x (by simp [hx])) hl h1.2 h2.2]
        rfl

/-- A node without NaN payload is equal to itself. -/
theorem eq_refl_of_no_nan : ∀ (k : Nat) (a : Node), nodes a ≤ k → no_nan a = true →
    eq a a = true := by
  intro k
  induction k with
  | zero => intro a h; rw [nodes_eq] at h; omega
  | succ k ih =>
    intro a hk hn
    rw [nodes_eq] at hk
    rw [no_nan_eq, Bool.and_eq_true, decide_eq_true_eq] at hn
    have hch : eq_children a.children a.children = true :=
      eq_children_refl _ (fun c hc =>
        ih c (by have := nodes_le_of_mem _ c hc; omega) (no_nan_of_mem _ c hn.2 hc))
    have hnv := double_eq_refl a.numeric_value hn.1
    have hu := Token.eq_refl_all a.unit
    have htok := Token.eq_refl_all a.token
    rw [eq_unfold]
    simp only [ne_eq, not_true_eq_false, if_false]
    cases a.type <;> simp [hch, hnv, hu, htok]

/-- Equality of nodes is symmetric. -/
theorem eq_symm_nodes : ∀ (k : Nat) (a b : Node), nodes a ≤ k → eq a b = true →
    eq b a = true := by
  intro k
  induction k with
  | zero => intro a b h; rw [nodes_eq] at h; omega
  | succ k ih =>
    intro a b hk h
    rw [nodes_eq] at hk
    have hL : eq_children a.children b.children = true →
        eq_children b.children a.children = true :=
      eq_children_symm _ _ (fun c hc d hd =>
        ih c d (by have := nodes_le_of_mem _ c hc; omega) hd)
    have hD := double_eq_symm a.numeric_value b.numeric_value
    have hU := Token.eq_symm_all a.unit b.unit
    have hT := Token.eq_symm_all a.token b.token
    rw [eq_unfold] at h
    by_cases ht : a.type = b.type
    · rw [eq_unfold, ← ht]
      simp only [ht, ne_eq, not_true_eq_false, if_false] at h
      simp only [ne_eq, not_true_eq_false, if_false]
      rw [← ht] at h
      cases hta : a.type <;> simp only [hta] at h ⊢ <;>
        first
        | rfl
        | exact hT h
        | exact hD h
        | (simp only [decide_eq_true_eq] at h ⊢; exact h.symm)
        | (by_cases hl : a.children.length = b.children.length
           · simp only [hl, ne_eq, not_true_eq_false, if_false] at h ⊢
             exact hL h
           · simp [hl] at h)
        | (by_cases hu : Token.eq a.unit b.unit = true
           · simp only [hu, if_true] at h
             simp only [hU hu, if_true]
             exact hD h
           · simp [hu] at h)
    · simp [ht] at h

/-- Equality of nodes is transitive. -/
theorem eq_trans_nodes : ∀ (k : Nat) (a b c : Node), nodes a ≤ k → eq a b = true →
    eq b c = true → eq a c = true := by
  intro k
  induction k with
  | zero => intro a b c h; rw [nodes_eq] at h; omega
  | succ k ih =>
    intro a b c hk h1 h2
    rw [nodes_eq] at hk
    have hL : a.children.length = b.children.length →
        eq_children a.children b.children = true →
        eq_children b.children c.children = true →
        eq_children a.children c.children = true :=
      eq_children_trans _ _ _ (fun x hx y z hxy hyz =>
        ih x y z (by have := nodes_le_of_mem _ x hx; omega) hxy hyz)
    have hD := double_eq_trans a.numeric_value b.numeric_value c.numeric_value
    have hU := Token.eq_trans_all a.unit b.unit c.unit
    have hT := Token.eq_trans_all a.token b.token c.token
    rw [eq_unfold] at h1 h2
    by_cases hab : a.type = b.type
    · by_cases hbc : b.type = c.type
      · rw [eq_unfold, if_neg (by simp [hab, hbc])]
        simp only [hab, hbc, ne_eq, not_true_eq_false, if_false] at h1 h2
        rw [hab, hbc]
        cases htc : c.type <;> simp only [htc] at h1 h2 ⊢ <;>
          first
          | rfl
          | exact hT h1 h2
          | exact hD h1 h2
          | (simp only [decide_eq_true_eq] at h1 h2 ⊢; exact h1.trans h2)
          | (have hl1 : a.children.length = b.children.length := by
               by_contra hc
               simp [hc] at h1
             have hl2 : b.children.length = c.children.length := by
               by_contra hc
               simp [hc] at h2
             have e1 : eq_children a.children b.children = true := by simpa [hl1] using h1
             have e2 : eq_children b.children c.children = true := by simpa [hl2] using h2
             have e3 := hL hl1 e1 e2
             simp [hl1.trans hl2, e3])
          | (by_cases hu1 : Token.eq a.unit b.unit = true
             · by_cases hu2 : Token.eq b.unit c.unit = true
               · simp only [hu1, hu2, if_true] at h1 h2
                 simp only [hU hu1 hu2, if_true]
                 exact hD h1 h2
               · simp [hu2] at h2
             · simp [hu1] at h1)
      · simp [hbc] at h2
    · simp [hab] at h1

/-- C19. On node trees without NaN payload `==` is an equivalence relation: `a == a` holds,
`a == b` implies `b == a`, and `a == b` with `b == c` implies `a == c`, whatever the tags.
Only the first of the three uses the absence of NaN. -/
theorem node_eq_equivalence (a b c : Node) (ha : no_nan a = true) (_hb : no_nan b = true)
    (_hc : no_nan c = true) :
    eq a a = true ∧ (eq a b = true → eq b a = true) ∧
      (eq a b = true → eq b c = true → eq a c = true) :=
  ⟨eq_refl_of_no_nan _ a (Nat.le_refl _) ha, eq_symm_nodes _ a b (Nat.le_refl _),
    eq_trans_nodes _ a b c (Nat.le_refl _)⟩

/-- Instance of C19 on the comma list `(1, 2px)`. -/
theorem node_eq_equivalence_witness :
    eq list_node list_node = true ∧
      (eq list_node list_node = true → eq list_node list_node = true) ∧
      (eq list_node list_node = true → eq list_node list_node = true →
        eq list_node list_node = true) :=
  node_eq_equivalence list_node list_node list_node (by decide) (by decide) (by decide)

/-- A `number` node whose payload is NaN is not equal to itself. -/
theorem eq_nan_irreflexive :
    eq (number_node double.nan) (number_node double.nan) = false := by
  decide

/-! ### Flattening without precondition -/

/-- The loop with the record of the children inlined returns the store that the loop of
`flatten` returns. -/
theorem flatten_loop_inlined_fst (f : Node → Option Node) :
    ∀ (k : Nat) (self : Node) (i : Nat) (acc : List Node),
      (flatten_loop_inlined f k self i acc).map Prod.fst = flatten_loop f k self i := by
  intro k
  induction k with
  | zero => intro self i acc; simp [flatten_loop_inlined, flatten_loop]
  | succ k ih =>
    intro self i acc
    simp only [flatten_loop_inlined, flatten_loop, List.get?_eq_getElem?]
    by_cases hi : i < self.size
    · simp only [hi, if_true]
      cases hget : self.children[i]? with
      | none => simp
      | some at_i =>
        simp only []
        by_cases ht : at_i.type = expansion
        · simp only [ht, if_true]
          cases hexp : (if at_i.has_expansions = true then f at_i else some at_i) with
          | none => simp
          | some expn => simp only [ih]
        · simp only [ht, if_false, ih]
    · simp only [hi, if_false, Option.map_some']

/-- The transform with the record of the children inlined returns the store that `flatten`
returns. -/
theorem flatten_inlined_fst (fuel : Nat) (n : Node) :
    (flatten_inlined fuel n).map Prod.fst = flatten fuel n := by
  cases fuel with
  | zero => simp [flatten_inlined, flatten]
  | succ fuel =>
    simp only [flatten_inlined, flatten]
    split
    · simp
    · exact flatten_loop_inlined_fst _ _ _ _ _

theorem flatten_loop_inlined_end (f : Node → Option Node) (k : Nat) (self : Node) (i : Nat)
    (acc : List Node) (h : self.size ≤ i) :
    flatten_loop_inlined f (k + 1) self i acc = some (self, acc) := by
  simp only [flatten_loop_inlined]
  rw [if_neg (by omega)]

theorem flatten_loop_inlined_step_other (f : Node → Option Node) (k : Nat) (t : Node_Type)
    (done : List Node) (c : Node) (rest : List Node) (tok : Token) (v : value_t) (s b e : Bool)
    (p : String) (l : Nat) (acc : List Node) (hc : c.type ≠ expansion) :
    flatten_loop_inlined f (k + 1) (mk t (done ++ c :: rest) tok v s b e p l) done.length acc =
      flatten_loop_inlined f k (mk t ((done ++ [c]) ++ rest) tok v s b e p l)
        (done ++ [c]).length acc := by
  simp only [flatten_loop_inlined, size, children, List.length_append, List.length_cons]
  rw [if_pos (by omega)]
  simp only [get?_length_append, hc, if_false]
  simp

theorem flatten_loop_inlined_step_expansion (f : Node → Option Node) (k : Nat)
    (t : Node_Type) (done : List Node) (c : Node) (rest : List Node) (tok : Token)
    (v : value_t) (s b e : Bool) (p : String) (l : Nat) (acc : List Node)
    (hc : c.type = expansion) (expn : Node)
    (h : (if c.has_expansions then f c else some c) = some expn) :
    flatten_loop_inlined f (k + 1) (mk t (done ++ c :: rest) tok v s b e p l) done.length acc =
      flatten_loop_inlined f k
        (mk t (done ++ (expn.children ++ rest)) tok v (s || expn.has_statements)
          (b || expn.has_blocks) (e || expn.has_expansions) p l) (done.length + 1)
        (acc ++ [expn]) := by
  simp only [flatten_loop_inlined, size, children, List.length_append, List.length_cons]
  rw [if_pos (by omega)]
  simp only [get?_length_append, hc, if_true, h, or_flags, set_children, children]
  have e1 : (done ++ c :: rest).eraseIdx done.length = done ++ rest := by
    rw [List.eraseIdx_append_of_length_le (Nat.le_refl _)]
    simp
  rw [e1]
  simp

/-- The loop of `flatten` from any state, with fuel and counter above the number of stores
left to visit.  It returns; its result keeps the tag, token, payload, path and line; each flag
is or-ed with the flags of the nodes recorded as inlined, which are expansions; the inlined
leaf sequence of the children is unchanged and their number of stores does not grow. -/
theorem flatten_loop_inlined_spec (fuel : Nat)
    (ih : ∀ c : Node, nodes c ≤ fuel → ∃ r, flatten fuel c = some r ∧
      leaves_list r.children = leaves_list c.children ∧
      nodes_list r.children ≤ nodes_list c.children ∧ r.type = c.type) :
    ∀ (k : Nat) (rest done : List Node) (t : Node_Type) (tok : Token) (v : value_t)
      (s b e : Bool) (p : String) (l : Nat) (acc : List Node),
      nodes_list rest < k → nodes_list rest ≤ fuel →
      ∃ cs xs,
        flatten_loop_inlined (flatten fuel) k (mk t (done ++ rest) tok v s b e p l)
            done.length acc =
          some (mk t cs tok v (s || xs.any has_statements) (b || xs.any has_blocks)
            (e || xs.any has_expansions) p l, acc ++ xs) ∧
        leaves_list cs = leaves_list (done ++ rest) ∧
        nodes_list cs ≤ nodes_list (done ++ rest) ∧
        ∀ x ∈ xs, x.type = expansion := by
  intro k
  induction k with
  | zero => intro rest done t tok v s b e p l acc h; omega
  | succ k ihk =>
    intro rest done t tok v s b e p l acc hk hf
    cases rest with
    | nil =>
      refine ⟨done, [], ?_, by simp, by simp, by simp⟩
      rw [flatten_loop_inlined_end _ k _ _ _ (by simp [size, children])]
      simp
    | cons c rest =>
      rw [nodes_list_cons] at hk hf
      by_cases hc : c.type = expansion
      · have hexp : ∃ expn, (if c.has_expansions then flatten fuel c else some c) = some expn ∧
            leaves_list expn.children = leaves_list c.children ∧
            nodes_list expn.children ≤ nodes_list c.children ∧ expn.type = expansion := by
          by_cases he : c.has_expansions = true
          · obtain ⟨r, h1, h2, h3, h4⟩ := ih c (by rw [nodes_eq]; omega)
            exact ⟨r, by simp [he, h1], h2, h3, by rw [h4, hc]⟩
          · exact ⟨c, by simp [he], rfl, Nat.le_refl _, hc⟩
        obtain ⟨expn, h1, h2, h3, h4⟩ := hexp
        rw [flatten_loop_inlined_step_expansion _ k t done c rest tok v s b e p l acc hc _ h1]
        have hlv : leaves_list (done ++ c :: rest) =
            leaves_list (done ++ (expn.children ++ rest)) := by
          rw [leaves_list_append, leaves_list_append, leaves_list_append, leaves_list_cons,
            if_pos hc, h2]
        have hnd : nodes_list (done ++ (expn.children ++ rest)) ≤
            nodes_list (done ++ c :: rest) := by
          rw [nodes_list_append, nodes_list_append, nodes_list_append, nodes_list_cons]
          omega
        cases hX : expn.children ++ rest with
        | nil =>
          refine ⟨done, [expn], ?_, ?_, ?_, ?_⟩
          · have hk1 : 0 < k := by omega
            obtain ⟨k', rfl⟩ := Nat.exists_eq_succ_of_ne_zero (Nat.pos_iff_ne_zero.mp hk1)
            rw [flatten_loop_inlined_end _ k' _ _ _ (by simp [size, children])]
            simp
          · rw [hlv, hX]; simp
          · rw [hX] at hnd; simpa using hnd
          · intro x hx
            simp only [List.mem_singleton] at hx
            rw [hx]; exact h4
        | cons x X =>
          have hXn : nodes_list (expn.children ++ rest) = 1 + nodes_list x.children +
              nodes_list X := by rw [hX, nodes_list_cons]
          rw [nodes_list_append] at hXn
          have e1 : done ++ x :: X = (done ++ [x]) ++ X := by simp
          have e2 : done.length + 1 = (done ++ [x]).length := by simp
          obtain ⟨cs, xs, g1, g2, g3, g4⟩ := ihk X (done ++ [x]) t tok v
            (s || expn.has_statements) (b || expn.has_blocks) (e || expn.has_expansions)
            p l (acc ++ [expn]) (by omega) (by omega)
          refine ⟨cs, expn :: xs, ?_, ?_, ?_, ?_⟩
          · rw [e1, e2, g1]
            simp [Bool.or_assoc]
          · rw [g2, hlv, hX, e1]
          · rw [hX, e1] at hnd
            exact Nat.le_trans g3 hnd
          · intro y hy
            rcases List.mem_cons.mp hy with hy | hy
            · rw [hy]; exact h4
            · exact g4 y hy
      · rw [flatten_loop_inlined_step_other _ k t done c rest tok v s b e p l acc hc]
        obtain ⟨cs, xs, g1, g2, g3, g4⟩ := ihk rest (done ++ [c]) t tok v s b e p l acc
          (by omega) (by omega)
        have e1 : done ++ c :: rest = (done ++ [c]) ++ rest := by simp
        exact ⟨cs, xs, g1, by rw [g2, e1], by rw [e1]; exact g3, g4⟩

/-- With fuel at least its number of stores, `flatten` returns on every node.  The result
keeps the tag, token, payload, path and line; each flag is or-ed with the flags of the
expansion children recorded as inlined; the inlined leaf sequence of the children is
unchanged and the number of stores does not grow. -/
theorem flatten_inlined_spec : ∀ (fuel : Nat) (t : Node_Type) (cs : List Node) (tok : Token)
    (v : value_t) (s b e : Bool) (p : String) (l : Nat),
    nodes (mk t cs tok v s b e p l) ≤ fuel →
    ∃ cs' xs,
      flatten_inlined fuel (mk t cs tok v s b e p l) =
        some (mk t cs' tok v (s || xs.any has_statements) (b || xs.any has_blocks)
          (e || xs.any has_expansions) p l, xs) ∧
      leaves_list cs' = leaves_list cs ∧ nodes_list cs' ≤ nodes_list cs ∧
      ∀ x ∈ xs, x.type = expansion := by
  intro fuel
  induction fuel with
  | zero => intro t cs tok v s b e p l h; rw [nodes_eq] at h; omega
  | succ fuel ih =>
    intro t cs tok v s b e p l hn
    rw [nodes_eq] at hn
    simp only [children] at hn
    by_cases hg : t ≠ block ∧ t ≠ expansion ∧ t ≠ root
    · refine ⟨cs, [], ?_, rfl, Nat.le_refl _, by simp⟩
      simp only [flatten_inlined, type_mk, if_pos hg]
      simp
    · have ih' : ∀ c : Node, nodes c ≤ fuel → ∃ r, flatten fuel c = some r ∧
          leaves_list r.children = leaves_list c.children ∧
          nodes_list r.children ≤ nodes_list c.children ∧ r.type = c.type := by
        intro c hc
        cases c with
        | mk t1 cs1 tok1 v1 s1 b1 e1 p1 l1 =>
          obtain ⟨cs', xs, g1, g2, g3, _⟩ := ih t1 cs1 tok1 v1 s1 b1 e1 p1 l1 hc
          have := flatten_inlined_fst fuel (mk t1 cs1 tok1 v1 s1 b1 e1 p1 l1)
          rw [g1] at this
          exact ⟨_, this.symm, g2, g3, rfl⟩
      obtain ⟨cs', xs, g1, g2, g3, g4⟩ := flatten_loop_inlined_spec fuel ih' (fuel + 1) cs []
        t tok v s b e p l [] (by omega) (by omega)
      refine ⟨cs', xs, ?_, by simpa using g2, by simpa using g3, g4⟩
      simp only [flatten_inlined, type_mk, if_neg hg]
      simpa using g1

/-- C15. On a block, an expansion or a root, `flatten` (with fuel at least the number of
stores) returns a node each of whose three flags is the logical or of the flag before the call
and of the same flag on the expansion children that were inlined, each read after its own
recursive `flatten`.  No flag is cleared: a flag `has_expansions` set before the call is set
afterwards. -/
theorem flatten_flags (fuel : Nat) (n : Node) (hf : nodes n ≤ fuel)
    (_ht : n.type = block ∨ n.type = expansion ∨ n.type = root) :
    ∃ r xs, flatten_inlined fuel n = some (r, xs) ∧ flatten fuel n = some r ∧
      (∀ x ∈ xs, x.type = expansion) ∧
      r.has_statements = (n.has_statements || xs.any has_statements) ∧
      r.has_blocks = (n.has_blocks || xs.any has_blocks) ∧
      r.has_expansions = (n.has_expansions || xs.any has_expansions) ∧
      (n.has_expansions = true → r.has_expansions = true) := by
  cases n with
  | mk t cs tok v s b e p l =>
    obtain ⟨cs', xs, g1, _, _, g4⟩ := flatten_inlined_spec fuel t cs tok v s b e p l hf
    have g5 := flatten_inlined_fst fuel (mk t cs tok v s b e p l)
    rw [g1] at g5
    refine ⟨_, xs, g1, g5.symm, g4, rfl, rfl, rfl, ?_⟩
    intro h
    simp only [has_expansions] at h ⊢
    simp [h]

/-- Instance of C15: the root `[A, expansion(B, expansion(C)), D]` has its flag
`has_expansions` set before `flatten` and after it, when none of its children `[A, B, C, D]`
is an expansion. -/
theorem flatten_flags_witness :
    (flatten 7 nested_root).map has_expansions = some true ∧
    (flatten 7 nested_root).map children = some [leaf 65, leaf 66, leaf 67, leaf 68] ∧
    ∃ r xs, flatten_inlined 7 nested_root = some (r, xs) ∧ flatten 7 nested_root = some r ∧
      (∀ x ∈ xs, x.type = expansion) ∧
      r.has_statements = (nested_root.has_statements || xs.any has_statements) ∧
      r.has_blocks = (nested_root.has_blocks || xs.any has_blocks) ∧
      r.has_expansions = (nested_root.has_expansions || xs.any has_expansions) ∧
      (nested_root.has_expansions = true → r.has_expansions = true) :=
  ⟨rfl, rfl, flatten_flags 7 nested_root (by decide) (Or.inr (Or.inr rfl))⟩

/-- C16. On a block, an expansion or a root in which every expansion reached through chains of
expansion children has at least one child and has its flag `has_expansions` set when one of
its children is an expansion, `flatten` (with fuel at least the number of stores) returns a
node without expansion child, whose child sequence is the inlined leaf sequence: the
left-to-right sequence of the nodes that are not expansions, every expansion being expanded in
place to any depth. -/
theorem flatten_leaves (fuel : Nat) (n : Node) (hf : nodes n ≤ fuel)
    (ht : n.type = block ∨ n.type = expansion ∨ n.type = root)
    (hr : ∀ x ∈ expansions_list n.children, regular x = true) :
    ∃ r, flatten fuel n = some r ∧ (∀ x ∈ r.children, x.type ≠ expansion) ∧
      r.children = leaves_list n.children := by
  refine ⟨inlined n, flatten_regular fuel n hf ht hr, ?_, inlined_children n⟩
  rw [inlined_children]
  exact (leaves_list_spec _ n.children (Nat.le_refl _)).1

/-- Instance of C16 on the root `[A, expansion(B, expansion(C)), D]`, whose inlined leaf
sequence is `[A, B, C, D]`. -/
theorem flatten_leaves_witness :
    leaves_list nested_root.children = [leaf 65, leaf 66, leaf 67, leaf 68] ∧
    ∃ r, flatten 7 nested_root = some r ∧ (∀ x ∈ r.children, x.type ≠ expansion) ∧
      r.children = leaves_list nested_root.children :=
  ⟨rfl, flatten_leaves 7 nested_root (by decide) (Or.inr (Or.inr rfl)) (by decide)⟩

/-- C17. `flatten` loses, duplicates and reorders no statement.  On every block, expansion or
root, without condition on the flags or on empty expansions, `flatten` (with fuel at least the
number of stores) returns a node whose inlined leaf sequence is the inlined leaf sequence of
the node before the call; on a node of any other tag it returns the node unchanged. -/
theorem flatten_preserves_leaves (fuel : Nat) (n : Node) (hf : nodes n ≤ fuel) :
    ((n.type = block ∨ n.type = expansion ∨ n.type = root) →
      ∃ r, flatten fuel n = some r ∧ leaves_list r.children = leaves_list n.children) ∧
    (¬ (n.type = block ∨ n.type = expansion ∨ n.type = root) → flatten fuel n = some n) := by
  constructor
  · intro _
    cases n with
    | mk t cs tok v s b e p l =>
      obtain ⟨cs', xs, g1, g2, _, _⟩ := flatten_inlined_spec fuel t cs tok v s b e p l hf
      have g5 := flatten_inlined_fst fuel (mk t cs tok v s b e p l)
      rw [g1] at g5
      exact ⟨_, g5.symm, g2⟩
  · intro ht
    cases fuel with
    | zero => rw [nodes_eq] at hf; omega
    | succ fuel => exact flatten_other fuel n ht

/-- Instance of C17: the root `[expansion(), expansion(B)]` is flattened to a root that still
has the inlined leaf sequence `[B]`, and the node `A`, which is no container, is returned
unchanged. -/
theorem flatten_preserves_leaves_witness :
    leaves_list empty_expansion_root.children = [leaf 66] ∧
    (∃ r, flatten 4 empty_expansion_root = some r ∧
      leaves_list r.children = leaves_list empty_expansion_root.children) ∧
    flatten 4 (leaf 65) = some (leaf 65) :=
  ⟨rfl,
    (flatten_preserves_leaves 4 empty_expansion_root (by decide)).1 (Or.inr (Or.inr rfl)),
    (flatten_preserves_leaves 4 (leaf 65) (by decide)).2 (by decide)⟩

end Node

end Sass
